/-
  Verification of the nuwault-core derivation pipeline.

  Shallow embedding of the repository's two core components:
  * `HashGenerator` (src/crypto/hash-generator.ts): iterated salted hashing
    turning normalized keywords into a hex digest.  The cryptographic
    primitive (SHA-512 via `crypto.subtle.digest`) is treated as a black-box
    function `hashFn : String → List Nat` producing the digest bytes
    (each < 256, as delivered by `Uint8Array`).
  * `PasswordGenerator` (src/password-generator.ts): deterministic mapping
    of a digest to a password with target class distribution, repetition
    control, fill pass and Fisher-Yates shuffle.

  JavaScript-specific semantics that the embedding reproduces:
  * `Array.prototype.filter`/`map`/`reduce` become list operations;
  * `parseInt(s, 16)` on strings of hexadecimal digits parses the longest
    valid prefix and yields `none` (JS `NaN`) when the first character is
    not a hex digit (sign/`0x`-prefix handling never triggers on the
    hexadecimal digest content the mapper consumes);
  * `x || 1` maps `NaN` and `0` to `1`;
  * `Math.floor(length * w)` for the distribution weights
    `w ∈ {0.20, 0.25, 0.35}` agrees with exact rational arithmetic
    `length * num / 100` in ℕ for every length in the validated range
    `[8, 128]` (checked against IEEE-754 doubles for all such lengths),
    so the embedding uses ℕ division;
  * `String.prototype.trim`/`toLowerCase` are modelled on the character
    ranges exercised here (ASCII whitespace, ASCII letters and the
    Latin-1 uppercase range for case mapping).
-/
import Mathlib

namespace Nuwault

/-! ### JavaScript string primitives -/

/-- Whitespace characters removed by `String.prototype.trim`
(ASCII part of the WhiteSpace/LineTerminator productions plus NBSP). -/
def jsIsWhitespace (c : Char) : Bool :=
  c = ' ' || c.toNat = 9 || c.toNat = 10 || c.toNat = 11 ||
  c.toNat = 12 || c.toNat = 13 || c.toNat = 160

/-- JS `String.prototype.trim`: drop whitespace from both ends. -/
def jsTrimList (s : List Char) : List Char :=
  ((s.dropWhile jsIsWhitespace).reverse.dropWhile jsIsWhitespace).reverse

/-- JS `String.prototype.trim` on strings. -/
def jsTrim (s : String) : String :=
  String.mk (jsTrimList s.data)

/-- JS `String.prototype.toLowerCase`, on the character ranges exercised by
this repository: ASCII `A`-`Z` and the Latin-1 uppercase letters
`À`-`Þ` (except `×`) map down by 32; every other character is kept.
In particular accented characters stay accented (`É` ↦ `é`). -/
def jsToLower (c : Char) : Char :=
  if 'A' ≤ c ∧ c ≤ 'Z' then Char.ofNat (c.toNat + 32)
  else if 0xC0 ≤ c.toNat ∧ c.toNat ≤ 0xDE ∧ c.toNat ≠ 0xD7 then Char.ofNat (c.toNat + 32)
  else c

/-- JS `s.toLowerCase()` on strings. -/
def jsToLowerString (s : String) : String :=
  String.mk (s.data.map jsToLower)

/-- Value of one hexadecimal digit (both cases), `none` otherwise. -/
def hexDigitVal (c : Char) : Option Nat :=
  if '0' ≤ c ∧ c ≤ '9' then some (c.toNat - 48)
  else if 'a' ≤ c ∧ c ≤ 'f' then some (c.toNat - 87)
  else if 'A' ≤ c ∧ c ≤ 'F' then some (c.toNat - 55)
  else none

/-- JS `parseInt(s, 16)` on digest content: parse the longest prefix of
hexadecimal digits, `none` (JS `NaN`) when the first character is not a
hex digit. -/
def jsParseIntHex (s : List Char) : Option Nat :=
  match s with
  | [] => none
  | c :: rest =>
    match hexDigitVal c with
    | none => none
    | some v => some (go v rest)
where
  /-- Accumulate further hex digits, stopping at the first invalid one. -/
  go (acc : Nat) : List Char → Nat
  | [] => acc
  | c :: rest =>
    match hexDigitVal c with
    | none => acc
    | some v => go (acc * 16 + v) rest

/-- Lowercase hex character of a value < 16
(`b.toString(16)` digit alphabet). -/
def hexDigitChar (n : Nat) : Char :=
  if n < 10 then Char.ofNat (48 + n) else Char.ofNat (87 + n)

/-- JS `b.toString(16).padStart(2, '0')` for a byte `b < 256`. -/
def hexByte (b : Nat) : List Char :=
  [hexDigitChar (b / 16 % 16), hexDigitChar (b % 16)]

/-- JS `hashArray.map(b => b.toString(16).padStart(2, '0')).join('')`:
lowercase hex encoding of the digest bytes. -/
def hexEncode (bytes : List Nat) : String :=
  String.mk (bytes.map hexByte).flatten

/-! ### HashGenerator (src/crypto/hash-generator.ts) -/

/-- JS `SECURITY_CONFIG.hashIterations` (src/config.ts). -/
def hashIterationsDefault : Nat := 1000

/-- JS `SECURITY_CONFIG.minPasswordLength`. -/
def minPasswordLength : Nat := 8

/-- JS `SECURITY_CONFIG.maxPasswordLength`. -/
def maxPasswordLength : Nat := 128

/-- JS `HashGenerator.normalizeInput`: trim then lowercase.  (The source
performs no Unicode NFD decomposition and removes no combining marks.) -/
def normalizeInput (s : String) : String :=
  jsToLowerString (jsTrim s)

/-- JS `HashGenerator.validateInputs`: throw when the raw array is empty,
otherwise keep the entries whose trimmed form is non-empty.  (The
`typeof input !== 'string'` branch of the source disappears because the
embedding types keywords as strings.)  There is no check on the combined
normalized length. -/
def validateInputs (inputs : List String) : Except String (List String) :=
  if inputs.isEmpty then
    Except.error "Inputs must be a non-empty array"
  else
    Except.ok (inputs.filter (fun s => (jsTrim s).data.length > 0))

/-- One iteration of the hash chain of `HashGenerator.generateHash`:
assemble the salt components (master salt when non-null and non-empty,
the literal iteration marker, the normalized joined input and the
current material), join with `|`, hash, hex-encode. -/
def hashIteration (hashFn : String → List Nat) (masterSalt : Option String)
    (normalizedInputs : String) (currentHash : String) (i : Nat) : String :=
  let saltComponents :=
    (match masterSalt with
     | some s => if s.data.length > 0 then [s] else []
     | none => []) ++
    ["iter-" ++ toString i, normalizedInputs, currentHash]
  hexEncode (hashFn (String.intercalate "|" saltComponents))

/-- Core of `HashGenerator.generateHash`: validation, normalization and
the iterated hash chain.  `SECURITY_CONFIG.masterSalt` is `null`, so the
effective master salt is the caller's argument. -/
def generateHashCore (hashFn : String → List Nat) (keywords : List String)
    (masterSalt : Option String) (iterations : Nat) : Except String String :=
  match validateInputs keywords with
  | Except.error e => Except.error e
  | Except.ok validated =>
    let normalizedInputs := String.intercalate "|" (validated.map normalizeInput)
    Except.ok ((List.range iterations).foldl
      (fun currentHash i => hashIteration hashFn masterSalt normalizedInputs currentHash i)
      normalizedInputs)

/-- JS `HashResult` of the source: hash plus metadata. -/
structure HashResult where
  hash : String
  iterations : Nat
  timestamp : Nat
  deriving Repr, DecidableEq

/-- JS `HashGenerator.generateHash` with its observable environment made
explicit: `now` is the value of `Date.now()` at return time and
`delayMs` the wall-clock span of the artificial `setTimeout` delay after
the first iteration.  Neither enters the hash computation. -/
def generateHash (hashFn : String → List Nat) (keywords : List String)
    (masterSalt : Option String) (iterations : Nat)
    (now delayMs : Nat) : Except String HashResult :=
  let _ := delayMs
  (generateHashCore hashFn keywords masterSalt iterations).map
    (fun h => { hash := h, iterations := iterations, timestamp := now })

/-! ### PasswordGenerator configuration (src/config.ts) -/

/-- JS `CHARACTER_SETS.UPPERCASE`. -/
def UPPERCASE : List Char := "ABCDEFGHIJKLMNOPQRSTUVWXYZ".data

/-- JS `CHARACTER_SETS.LOWERCASE`. -/
def LOWERCASE : List Char := "abcdefghijklmnopqrstuvwxyz".data

/-- JS `CHARACTER_SETS.NUMBERS`. -/
def NUMBERS : List Char := "0123456789".data

/-- JS `CHARACTER_SETS.SYMBOLS`. -/
def SYMBOLS : List Char := "!@#$%^&*()_+-=[]\x7b\x7d|;:,.<>?".data

/-- All pool characters in pool order. -/
def ALLCHARS : List Char := UPPERCASE ++ LOWERCASE ++ NUMBERS ++ SYMBOLS

/-- The four character classes, in class-iteration order. -/
inductive CharType where
  | uppercase
  | lowercase
  | numbers
  | symbols
  deriving Repr, DecidableEq

/-- JS `'uppercase'.charCodeAt(0)` etc., the per-class seed constants. -/
def CharType.code : CharType → Nat
  | .uppercase => 117
  | .lowercase => 108
  | .numbers => 110
  | .symbols => 115

/-- A `CharacterSet` entry of the source: pool plus class tag. -/
structure CharacterSet where
  chars : List Char
  ctype : CharType
  deriving Repr, DecidableEq

/-- The four pool entries. -/
def upperSet : CharacterSet := ⟨UPPERCASE, CharType.uppercase⟩

/-- Lowercase pool entry. -/
def lowerSet : CharacterSet := ⟨LOWERCASE, CharType.lowercase⟩

/-- Numbers pool entry. -/
def numberSet : CharacterSet := ⟨NUMBERS, CharType.numbers⟩

/-- Symbols pool entry. -/
def symbolSet : CharacterSet := ⟨SYMBOLS, CharType.symbols⟩

/-- JS `PasswordOptions`: the four class-inclusion flags. -/
structure PasswordOptions where
  includeUppercase : Bool
  includeLowercase : Bool
  includeNumbers : Bool
  includeSymbols : Bool
  deriving Repr, DecidableEq

/-- JS `DEFAULT_PASSWORD_OPTIONS`: all four classes enabled. -/
def defaultOptions : PasswordOptions := ⟨true, true, true, true⟩

/-- Active character sets of `hashToPassword`, with the all-disabled
fallback enabling all four. -/
def activeSets (o : PasswordOptions) : List CharacterSet :=
  let s :=
    (if o.includeUppercase then [upperSet] else []) ++
    (if o.includeLowercase then [lowerSet] else []) ++
    (if o.includeNumbers then [numberSet] else []) ++
    (if o.includeSymbols then [symbolSet] else [])
  if s.isEmpty then [upperSet, lowerSet, numberSet, symbolSet] else s

/-- JS `TargetDistribution`: per-class character counts. -/
structure TargetDistribution where
  uppercase : Nat
  lowercase : Nat
  numbers : Nat
  symbols : Nat
  deriving Repr, DecidableEq

/-- Field of a distribution selected by class. -/
def TargetDistribution.get (d : TargetDistribution) : CharType → Nat
  | .uppercase => d.uppercase
  | .lowercase => d.lowercase
  | .numbers => d.numbers
  | .symbols => d.symbols

/-- Overwrite the field of one class. -/
def TargetDistribution.set (d : TargetDistribution) : CharType → Nat → TargetDistribution
  | .uppercase, n => { d with uppercase := n }
  | .lowercase, n => { d with lowercase := n }
  | .numbers, n => { d with numbers := n }
  | .symbols, n => { d with symbols := n }

/-- Sum of the four class counts. -/
def TargetDistribution.total (d : TargetDistribution) : Nat :=
  d.uppercase + d.lowercase + d.numbers + d.symbols

/-- JS `PasswordGenerator.calculateMaxRepetitions`. -/
def calculateMaxRepetitions (l : Nat) : Nat :=
  if l ≤ 8 then 2
  else if l ≤ 16 then max 2 (l / 6)
  else if l ≤ 32 then max 2 (l / 8)
  else max 3 (l / 10)

/-- The `Object.keys(targetDistribution).reduce` of the source: start
from `uppercase` and replace the accumulator whenever its count is not
strictly greater than the challenger's, walking the keys in insertion
order.  Ties therefore select the LAST class attaining the maximum. -/
def argmaxClass (d : TargetDistribution) : CharType :=
  let a1 := if d.get CharType.uppercase > d.get CharType.lowercase
            then CharType.uppercase else CharType.lowercase
  let a2 := if d.get a1 > d.get CharType.numbers then a1 else CharType.numbers
  if d.get a2 > d.get CharType.symbols then a2 else CharType.symbols

/-- First half of `PasswordGenerator.calculateTargetDistribution`: the
per-class floors — PASSWORD_DISTRIBUTION_CONFIG profile when all four
sets are active (long ≥ 64, medium ≥ 32, equal quarters below), even
split over the active sets otherwise (the inactive fields stay at the
zero initialization). -/
def baseDistribution (active : List CharacterSet) (l : Nat) : TargetDistribution :=
  if active.length = 4 then
    if l ≥ 64 then ⟨l * 20 / 100, l * 35 / 100, l * 20 / 100, l * 25 / 100⟩
    else if l ≥ 32 then ⟨l * 25 / 100, l * 35 / 100, l * 20 / 100, l * 20 / 100⟩
    else ⟨l / 4, l / 4, l / 4, l / 4⟩
  else
    let equalShare := l / active.length
    active.foldl (fun d s => d.set s.ctype equalShare) ⟨0, 0, 0, 0⟩

/-- JS `PasswordGenerator.calculateTargetDistribution`: per-class floors by
length profile (or equal split), then the whole remainder onto the class
selected by `argmaxClass`. -/
def calculateTargetDistribution (active : List CharacterSet) (l : Nat) :
    TargetDistribution :=
  let base := baseDistribution active l
  let remainder := l - base.total
  if remainder > 0 then
    let k := argmaxClass base
    base.set k (base.get k + remainder)
  else base

/-! ### The deterministic generator and the mapper passes -/

/-- JS `getHashValue`: read three hex digits at indices biased by `seed`,
advance the cursor by 3 (mod digest length), parse, clamp to ≥ 1.
Returns (value, new offset). -/
def getHashValue (hash : List Char) (off seed : Nat) : Nat × Nat :=
  let hl := hash.length
  let index1 := (off + seed) % hl
  let index2 := (off + seed + 1) % hl
  let index3 := (off + seed + 2) % hl
  let newOff := (off + 3) % hl
  let v := jsParseIntHex [hash.getD index1 ' ', hash.getD index2 ' ', hash.getD index3 ' ']
  (match v with
   | none => 1
   | some 0 => 1
   | some (n + 1) => n + 1, newOff)

/-- JS `Math.min(...)` over a list of naturals (callers pass non-empty lists). -/
def minList : List Nat → Nat
  | [] => 0
  | x :: xs => xs.foldl Nat.min x

/-- Mutable state of one `hashToPassword` call: the password array
(`none` = still empty), the `characterUsage` map and the generator
cursor.  `usedPositions` is represented by the filled entries of `pw`
(the source adds a position to the set exactly when it writes it during
the placement pass, and the fill pass visits each index once). -/
structure MapSt where
  pw : List (Option Char)
  usage : Char → Nat
  off : Nat

/-- JS `selectCharacterWithRepetitionControl`: prefer pool characters under
the repetition limit, otherwise fall back to the least-used ones; pick
by a generator draw modulo the candidate count.  Returns the character
and the new cursor. -/
def selectChar (hash : List Char) (avail : List Char) (usage : Char → Nat)
    (maxRep off seed : Nat) : Char × Nat :=
  let availableUnderLimit := avail.filter (fun c => usage c < maxRep)
  if availableUnderLimit.isEmpty then
    let leastUsedCount := minList (avail.map usage)
    let leastUsedChars := avail.filter (fun c => usage c = leastUsedCount)
    let draw := getHashValue hash off (seed + 1000)
    (leastUsedChars.getD (draw.1 % leastUsedChars.length) 'A', draw.2)
  else
    let draw := getHashValue hash off seed
    (availableUnderLimit.getD (draw.1 % availableUnderLimit.length) 'A', draw.2)

/-- The `do … while` probe loop of the placement pass.  `fuel` counts
the remaining permitted retries: the JS loop body running with attempt
counter `k` continues afterwards iff the drawn position is used and
`k + 1 < 2·length`; starting from `attempts = 0` with
`fuel = 2·length - 1` reproduces that bound.  Returns
(position, final attempts counter, new cursor). -/
def probeLoop (hash : List Char) (pw : List (Option Char)) (l seedBase : Nat) :
    Nat → Nat → Nat → Nat × Nat × Nat
  | fuel, attempts, off =>
    let draw := getHashValue hash off (seedBase + attempts)
    let pos := draw.1 % l
    match fuel with
    | 0 => (pos, attempts + 1, draw.2)
    | fuel' + 1 =>
      if (pw.getD pos none).isSome then
        probeLoop hash pw l seedBase fuel' (attempts + 1) draw.2
      else (pos, attempts + 1, draw.2)

/-- The linear scan for the first unused position. -/
def firstFreePos (pw : List (Option Char)) (l : Nat) : Option Nat :=
  (List.range l).find? (fun j => (pw.getD j none).isNone)

/-- Bump the usage count of one character
(`characterUsage.set(c, (characterUsage.get(c) || 0) + 1)`). -/
def bumpUsage (usage : Char → Nat) (c : Char) : Char → Nat :=
  fun d => if d = c then usage c + 1 else usage d

/-- Position choice of one placement slot: run the probe loop and, when
it exhausted its `2·length` attempts, fall back to the first free
position of the linear scan (keeping the probed position when the scan
finds nothing).  Returns the position and the cursor after the probes. -/
def choosePosition (hash : List Char) (pw : List (Option Char)) (l sb off : Nat) :
    Nat × Nat :=
  let probe := probeLoop hash pw l sb (2 * l - 1) 0 off
  (if probe.2.1 ≥ l * 2 then
     match firstFreePos pw l with
     | some j => j
     | none => probe.1
   else probe.1, probe.2.2)

/-- One placement-pass slot of `fillPasswordWithDistribution`: probe for
an unused position (falling back to a linear scan after `2·length`
attempts), then place a repetition-controlled character there. -/
def placeSlot (hash : List Char) (l maxRep : Nat) (setChars : List Char)
    (tcode : Nat) (st : MapSt) (i : Nat) : MapSt :=
  let pr := choosePosition hash st.pw l (tcode * 1000 + i * 100) st.off
  if (st.pw.getD pr.1 none).isSome then
    { st with off := pr.2 }
  else
    let sel := selectChar hash setChars st.usage maxRep pr.2 (tcode * 2000 + i * 300)
    { pw := st.pw.set pr.1 (some sel.1),
      usage := bumpUsage st.usage sel.1,
      off := sel.2 }

/-- All slots of one active set in the placement pass. -/
def placeSet (hash : List Char) (l maxRep : Nat) (d : TargetDistribution)
    (st : MapSt) (s : CharacterSet) : MapSt :=
  (List.range (d.get s.ctype)).foldl
    (placeSlot hash l maxRep s.chars s.ctype.code) st

/-- JS `fillPasswordWithDistribution`: the placement pass over all active
sets. -/
def fillPasswordWithDistribution (hash : List Char) (active : List CharacterSet)
    (d : TargetDistribution) (l maxRep : Nat) (st : MapSt) : MapSt :=
  active.foldl (placeSet hash l maxRep d) st

/-- The weight of one set in the fill pass: symbols 3 and numbers 2 for
length ≥ 32, otherwise 1. -/
def fillWeight (l : Nat) (s : CharacterSet) : Nat :=
  if s.ctype = CharType.symbols ∧ l ≥ 32 then 3
  else if s.ctype = CharType.numbers ∧ l ≥ 32 then 2
  else 1

/-- The weighted-selection loop of `fillRemainingPositions`: subtract
weights until the running value drops to ≤ 0; when the loop runs out the
first active set (the JS initial value) remains selected. -/
def chooseWeighted (dflt : CharacterSet) :
    List (CharacterSet × Nat) → Int → CharacterSet
  | [], _ => dflt
  | (s, w) :: rest, sw =>
    if sw - (w : Int) ≤ 0 then s else chooseWeighted dflt rest (sw - (w : Int))

/-- One index of `fillRemainingPositions`: when the position is still
empty, pick a class by weighted draw, then a repetition-controlled
character. -/
def fillStep (hash : List Char) (l maxRep : Nat) (active : List CharacterSet)
    (st : MapSt) (i : Nat) : MapSt :=
  if (st.pw.getD i none).isSome then st
  else
    let setWeights := active.map (fillWeight l)
    let totalWeight := setWeights.sum
    let draw := getHashValue hash st.off (i * 500)
    let selectedWeight : Int := (draw.1 % totalWeight : Nat)
    let selectedSet :=
      chooseWeighted (active.getD 0 upperSet) (active.zip setWeights) selectedWeight
    let sel := selectChar hash selectedSet.chars st.usage maxRep draw.2 (i * 600)
    { pw := st.pw.set i (some sel.1),
      usage := bumpUsage st.usage sel.1,
      off := sel.2 }

/-- JS `fillRemainingPositions` over all indices. -/
def fillRemainingPositions (hash : List Char) (active : List CharacterSet)
    (l maxRep : Nat) (st : MapSt) : MapSt :=
  (List.range l).foldl (fillStep hash l maxRep active) st

/-- The three-assignment swap of the shuffle. -/
def swapL (pw : List (Option Char)) (i j : Nat) : List (Option Char) :=
  let temp := pw.getD i none
  (pw.set i (pw.getD j none)).set j temp

/-- One Fisher-Yates step at index `i`. -/
def shuffleStep (hash : List Char) (st : List (Option Char) × Nat) (i : Nat) :
    List (Option Char) × Nat :=
  let draw := getHashValue hash st.2 (i * 400)
  let j := draw.1 % (i + 1)
  (swapL st.1 i j, draw.2)

/-- JS `shufflePassword`: indices from `length - 1` down to `1`. -/
def shufflePassword (hash : List Char) (l : Nat) (st : List (Option Char) × Nat) :
    List (Option Char) × Nat :=
  ((List.range' 1 (l - 1)).reverse).foldl (shuffleStep hash) st

/-- JS `PasswordGenerator.hashToPassword`: the full digest-to-password
mapping.  The final `join('')` is `filterMap id` (every entry is filled
by then, as proven below). -/
def hashToPassword (hash : String) (l : Nat) (o : PasswordOptions) : String :=
  let active := activeSets o
  let hashChars := hash.data
  let targetDistribution := calculateTargetDistribution active l
  let maxRep := calculateMaxRepetitions l
  let st0 : MapSt := ⟨List.replicate l none, fun _ => 0, 0⟩
  let st1 := fillPasswordWithDistribution hashChars active targetDistribution l maxRep st0
  let st2 := fillRemainingPositions hashChars active l maxRep st1
  let res := shufflePassword hashChars l (st2.pw, st2.off)
  String.mk (res.1.filterMap id)

/-! ### Diversity metrics (`calculateCharacterDiversity`) -/

/-- Number of distinct characters (the `Map` size of the source). -/
def uniqueCount (s : String) : Nat := s.data.dedup.length

/-- JS `maxRepetitions`: largest occurrence count of any single character. -/
def maxRepetitions (s : String) : Nat :=
  (s.data.dedup.map (fun c => s.data.count c)).foldr max 0

/-- The exact diversity observables of `calculateCharacterDiversity`
(unique count, max repetitions, password length; the two float fields
`averageRepetitions` and `diversityRatio` are determined by these). -/
def diversityTriple (s : String) : Nat × Nat × Nat :=
  (uniqueCount s, maxRepetitions s, s.data.length)

/-- A digest as the data model fixes it: 128 lowercase hexadecimal
characters (one SHA-512 output). -/
def IsDigest (h : String) : Prop :=
  h.data.length = 128 ∧ ∀ c ∈ h.data, hexDigitVal c ≠ none

instance (h : String) : Decidable (IsDigest h) := by
  unfold IsDigest; infer_instance

/-! ### Specification-side definitions used by the claims -/

/-- The combined normalized input of one derivation call: the keywords
that survive the validation filter, normalized and joined with the fixed
delimiter. -/
def joinedInput (keywords : List String) : String :=
  String.intercalate "|" ((keywords.filter (fun s => (jsTrim s).data.length > 0)).map normalizeInput)

/-- The digest recurrence as claim C2 states it: material starts at the
normalized joined input; each iteration joins (salt when present and
non-empty), the literal iteration marker, the normalized joined input
and the current material with the delimiter, hashes the message with the
black-box hash and stores its lowercase hex encoding. -/
def digestChainSpec (hashFn : String → List Nat) (salt : Option String)
    (joined : String) : Nat → String
  | 0 => joined
  | i + 1 =>
    let prev := digestChainSpec hashFn salt joined i
    let message := String.intercalate "|"
      ((match salt with
        | none => []
        | some s => if s = "" then [] else [s]) ++
       ["iter-" ++ toString i, joined, prev])
    hexEncode (hashFn message)

/-- The tie-break rule claim C7 asserts: the remainder goes to the FIRST
class (in class-iteration order) attaining the largest count. -/
def firstArgmaxClass (d : TargetDistribution) : CharType :=
  if d.uppercase ≥ d.lowercase ∧ d.uppercase ≥ d.numbers ∧ d.uppercase ≥ d.symbols then
    CharType.uppercase
  else if d.lowercase ≥ d.numbers ∧ d.lowercase ≥ d.symbols then CharType.lowercase
  else if d.numbers ≥ d.symbols then CharType.numbers
  else CharType.symbols

/-- The tie-break rule the source actually implements: the remainder
goes to the LAST class (in class-iteration order) attaining the largest
count. -/
def lastArgmaxClass (d : TargetDistribution) : CharType :=
  if d.symbols ≥ d.uppercase ∧ d.symbols ≥ d.lowercase ∧ d.symbols ≥ d.numbers then
    CharType.symbols
  else if d.numbers ≥ d.uppercase ∧ d.numbers ≥ d.lowercase then CharType.numbers
  else if d.lowercase ≥ d.uppercase then CharType.lowercase
  else CharType.uppercase

/-- Even split of the length over the active classes (the
fewer-than-four-classes rule of the spec). -/
def splitEven (active : List CharacterSet) (l : Nat) : TargetDistribution :=
  let share := l / active.length
  ⟨if upperSet ∈ active then share else 0,
   if lowerSet ∈ active then share else 0,
   if numberSet ∈ active then share else 0,
   if symbolSet ∈ active then share else 0⟩

/-- Per-class base counts as the spec states them: length-selected
weight profile when all four classes are active (`floor(length * w)`,
in exact arithmetic), even split otherwise. -/
def baseDistributionSpec (active : List CharacterSet) (l : Nat) : TargetDistribution :=
  if active.length = 4 then
    if l ≥ 64 then ⟨l * 20 / 100, l * 35 / 100, l * 20 / 100, l * 25 / 100⟩
    else if l ≥ 32 then ⟨l * 25 / 100, l * 35 / 100, l * 20 / 100, l * 20 / 100⟩
    else ⟨l / 4, l / 4, l / 4, l / 4⟩
  else splitEven active l

/-- Target distribution exactly as claim C7 words it (remainder to the
first largest class). -/
def targetDistributionClaimFirstTie (active : List CharacterSet) (l : Nat) :
    TargetDistribution :=
  let base := baseDistributionSpec active l
  let remainder := l - base.total
  if remainder > 0 then
    let k := firstArgmaxClass base
    base.set k (base.get k + remainder)
  else base

/-- Target distribution with the tie-break amended to the last largest
class — the rule the source implements. -/
def targetDistributionSpecLastTie (active : List CharacterSet) (l : Nat) :
    TargetDistribution :=
  let base := baseDistributionSpec active l
  let remainder := l - base.total
  if remainder > 0 then
    let k := lastArgmaxClass base
    base.set k (base.get k + remainder)
  else base

/-! ### Basic lemmas -/

/-- A string is empty exactly when its character list has length zero. -/
theorem string_eq_empty_iff (s : String) : s = "" ↔ s.data.length = 0 := by
  constructor
  · intro h
    rw [h]
    rfl
  · intro h
    have hd : s.data = [] := List.length_eq_zero.mp h
    cases s with
    | mk data =>
      simp only at hd
      rw [hd]

/-- The two phrasings of the non-empty-salt test agree. -/
theorem hashIteration_eq_spec_step (hashFn : String → List Nat)
    (salt : Option String) (joined prev : String) (i : Nat) :
    hashIteration hashFn salt joined prev i =
      hexEncode (hashFn (String.intercalate "|"
        ((match salt with
          | none => []
          | some s => if s = "" then [] else [s]) ++
         ["iter-" ++ toString i, joined, prev]))) := by
  cases salt with
  | none => rfl
  | some s =>
    by_cases h : s = ""
    · have hlen : ¬(s.data.length > 0) := by
        have := (string_eq_empty_iff s).mp h
        omega
      simp only [hashIteration]
      rw [if_neg hlen, if_pos h]
    · have hlen : s.data.length > 0 := by
        rcases Nat.eq_zero_or_pos s.data.length with h0 | h0
        · exact absurd ((string_eq_empty_iff s).mpr h0) h
        · exact h0
      simp only [hashIteration]
      rw [if_pos hlen, if_neg h]

/-- Unfolding of `generateHashCore` on a non-empty keyword array. -/
theorem generateHashCore_ok (hashFn : String → List Nat) (keywords : List String)
    (salt : Option String) (n : Nat) (h : keywords ≠ []) :
    generateHashCore hashFn keywords salt n =
      Except.ok ((List.range n).foldl
        (fun currentHash i => hashIteration hashFn salt (joinedInput keywords) currentHash i)
        (joinedInput keywords)) := by
  have hne : keywords.isEmpty = false := by
    cases keywords with
    | nil => exact absurd rfl h
    | cons a t => rfl
  simp [generateHashCore, validateInputs, hne, joinedInput]

/-! ### C1: determinism and timing independence -/

/-- C1.  Determinism as a two-run property: two `generateHash` calls with
identical (keywords, masterSalt, iterations) — even at different clock
readings `t₁`/`t₂` and with different artificial-delay spans `d₁`/`d₂` —
return identical hash strings, and two `hashToPassword` calls with
identical (hash, length, options) return identical passwords and
identical diversity metrics.  The timing delay and the timestamp field
do not influence the hash or password values. -/
theorem determinism_two_runs (hashFn : String → List Nat) (keywords : List String)
    (salt : Option String) (iterations t1 d1 t2 d2 : Nat)
    (hash : String) (l : Nat) (o : PasswordOptions) :
    (generateHash hashFn keywords salt iterations t1 d1).map HashResult.hash =
      (generateHash hashFn keywords salt iterations t2 d2).map HashResult.hash ∧
    hashToPassword hash l o = hashToPassword hash l o ∧
    diversityTriple (hashToPassword hash l o) = diversityTriple (hashToPassword hash l o) := by
  refine ⟨?_, rfl, rfl⟩
  unfold generateHash
  cases generateHashCore hashFn keywords salt iterations <;> rfl

/-! ### C2: the digest derivation recurrence -/

/-- C2.  Digest derivation: for every non-empty keyword array, salt and
iteration count, `generateHashCore` returns exactly the chain that
starts from the normalized `|`-joined keywords and, for each iteration
`i`, hashes the `|`-joined message (optional non-empty salt, literal
marker `iter-i`, the normalized joined input, the previous material) and
hex-encodes the digest bytes in lowercase. -/
theorem digest_chain_characterization (hashFn : String → List Nat)
    (keywords : List String) (salt : Option String) (n : Nat)
    (h : keywords ≠ []) :
    generateHashCore hashFn keywords salt n =
      Except.ok (digestChainSpec hashFn salt (joinedInput keywords) n) := by
  rw [generateHashCore_ok hashFn keywords salt n h]
  congr 1
  induction n with
  | zero => rfl
  | succ m ih =>
    rw [List.range_succ, List.foldl_append, List.foldl_cons, List.foldl_nil, ih]
    rw [hashIteration_eq_spec_step]
    rfl

/-- Witness for C2 at a concrete input. -/
theorem digest_chain_characterization_witness :
    generateHashCore (fun s => [s.length % 256, 7]) ["Test"] (some "s") 2 =
      Except.ok (digestChainSpec (fun s => [s.length % 256, 7]) (some "s")
        (joinedInput ["Test"]) 2) :=
  digest_chain_characterization (fun s => [s.length % 256, 7]) ["Test"] (some "s") 2
    (by decide)

/-! ### C5: the deterministic generator contract -/

/-- C5.  Generator contract: every draw reads the three digest characters
at indices `(offset+seed) mod L`, `(offset+seed+1) mod L`,
`(offset+seed+2) mod L`, advances the cursor by exactly 3 (mod L)
regardless of `seed`, and returns the parsed hex value, replaced by 1
when the parse yields 0 or is not a valid hex number (so the result is
always ≥ 1).  In the embedding this generator is the only randomness
source threaded through placement, character selection, fill and
shuffle. -/
theorem generator_draw_contract (hash : List Char) (off seed : Nat) :
    (getHashValue hash off seed).2 = (off + 3) % hash.length ∧
    (getHashValue hash off seed).1 ≥ 1 ∧
    (∀ v, v ≠ 0 →
      jsParseIntHex [hash.getD ((off + seed) % hash.length) ' ',
        hash.getD ((off + seed + 1) % hash.length) ' ',
        hash.getD ((off + seed + 2) % hash.length) ' '] = some v →
      (getHashValue hash off seed).1 = v) ∧
    ((jsParseIntHex [hash.getD ((off + seed) % hash.length) ' ',
        hash.getD ((off + seed + 1) % hash.length) ' ',
        hash.getD ((off + seed + 2) % hash.length) ' '] = none ∨
      jsParseIntHex [hash.getD ((off + seed) % hash.length) ' ',
        hash.getD ((off + seed + 1) % hash.length) ' ',
        hash.getD ((off + seed + 2) % hash.length) ' '] = some 0) →
      (getHashValue hash off seed).1 = 1) := by
  have hfst : (getHashValue hash off seed).1 =
      (match jsParseIntHex [hash.getD ((off + seed) % hash.length) ' ',
        hash.getD ((off + seed + 1) % hash.length) ' ',
        hash.getD ((off + seed + 2) % hash.length) ' '] with
       | none => 1
       | some 0 => 1
       | some (n + 1) => n + 1) := rfl
  refine ⟨rfl, ?_, ?_, ?_⟩
  · rw [hfst]
    rcases hp : jsParseIntHex [hash.getD ((off + seed) % hash.length) ' ',
        hash.getD ((off + seed + 1) % hash.length) ' ',
        hash.getD ((off + seed + 2) % hash.length) ' '] with _ | (_ | n) <;> simp
  · intro v hv hp
    rw [hfst, hp]
    cases v with
    | zero => exact absurd rfl hv
    | succ k => rfl
  · intro hp
    rw [hfst]
    rcases hp with hp | hp <;> rw [hp]

/-- Witness for C5 at a concrete digest, offset and seed. -/
theorem generator_draw_contract_witness :
    (getHashValue "465e349bf20ac009".data 0 5).2 = (0 + 3) % 16 ∧
      (getHashValue "465e349bf20ac009".data 0 5).1 ≥ 1 :=
  ⟨(generator_draw_contract "465e349bf20ac009".data 0 5).1,
   (generator_draw_contract "465e349bf20ac009".data 0 5).2.1⟩

/-! ### C3: the precondition check (code bug) -/

/-- C3 (code bug).  The deriver accepts `["ab"]` (combined normalized
content of length 2 < 3) and even an all-blank keyword array whose
filtered list is empty, returning a digest instead of the documented
`InvalidInput` error ("Combined inputs too short (minimum 3 characters
required)" in docs/developer-guide.md; usage-examples.md line 37). -/
theorem short_keywords_accepted :
    generateHashCore (fun _ => [0]) ["ab"] none 1 = Except.ok "00" ∧
    validateInputs ["  "] = Except.ok [] ∧
    generateHashCore (fun _ => [0]) ["  "] none 1 = Except.ok "00" := by
  refine ⟨rfl, rfl, rfl⟩

/-! ### C4: normalization keeps diacritics (code bug) -/

/-- C4 (code bug).  Normalization trims, lowercases and the keywords are
joined with the fixed delimiter, but no Unicode NFD decomposition or
combining-mark removal happens: the accented keyword stays accented,
contradicting the documented example `normalizeInput('Café') = 'cafe'`
(docs/developer-guide.md line 394, README.md line 206). -/
theorem normalization_keeps_diacritics :
    normalizeInput "Café" = "café" ∧ ("café" : String) ≠ "cafe" ∧
    joinedInput ["Café", " GitHub.COM "] = "café|github.com" := by
  refine ⟨rfl, by decide, rfl⟩

/-! ### C10: zero iterations return the plaintext join -/

/-- C10.  With `iterations = 0` and a valid (non-empty) keyword array the
iteration loop never runs and the returned `hash` field is the
normalized `|`-joined keyword string itself — the plaintext keyword
material, not a hex digest. -/
theorem zero_iterations_plaintext (hashFn : String → List Nat)
    (keywords : List String) (salt : Option String) (now delay : Nat)
    (h : keywords ≠ []) :
    (generateHash hashFn keywords salt 0 now delay).map HashResult.hash =
      Except.ok (joinedInput keywords) := by
  unfold generateHash
  rw [generateHashCore_ok hashFn keywords salt 0 h]
  rfl

/-- Witness for C10: two keywords, iterations 0, the plaintext comes
back. -/
theorem zero_iterations_plaintext_witness :
    (generateHash (fun s => [s.length % 256]) ["GitHub.COM ", " pass "] none 0 42 1).map
        HashResult.hash = Except.ok "github.com|pass" := by
  have := zero_iterations_plaintext (fun s => [s.length % 256])
    ["GitHub.COM ", " pass "] none 42 1 (by decide)
  rw [this]
  rfl

/-! ### C7: the target distribution -/

/-- The reduce-based argmax of the source picks the LAST class attaining
the maximum. -/
theorem argmaxClass_eq_last (d : TargetDistribution) :
    argmaxClass d = lastArgmaxClass d := by
  rcases d with ⟨u, lo, n, sy⟩
  simp only [argmaxClass, lastArgmaxClass, TargetDistribution.get]
  by_cases h1 : u > lo
  · rw [if_pos h1]
    simp only [TargetDistribution.get]
    by_cases h2 : u > n
    · rw [if_pos h2]
      simp only [TargetDistribution.get]
      by_cases h3 : u > sy
      · rw [if_pos h3, if_neg (by omega), if_neg (by omega), if_neg (by omega)]
      · rw [if_neg h3, if_pos (by omega)]
    · rw [if_neg h2]
      simp only [TargetDistribution.get]
      by_cases h3 : n > sy
      · rw [if_pos h3, if_neg (by omega), if_pos (by omega)]
      · rw [if_neg h3, if_pos (by omega)]
  · rw [if_neg h1]
    simp only [TargetDistribution.get]
    by_cases h2 : lo > n
    · rw [if_pos h2]
      simp only [TargetDistribution.get]
      by_cases h3 : lo > sy
      · rw [if_pos h3, if_neg (by omega), if_neg (by omega), if_pos (by omega)]
      · rw [if_neg h3, if_pos (by omega)]
    · rw [if_neg h2]
      simp only [TargetDistribution.get]
      by_cases h3 : n > sy
      · rw [if_pos h3, if_neg (by omega), if_pos (by omega)]
      · rw [if_neg h3, if_pos (by omega)]

/-- Adding `r` to one class raises the total by `r`. -/
theorem total_set_add (d : TargetDistribution) (k : CharType) (r : Nat) :
    (d.set k (d.get k + r)).total = d.total + r := by
  cases k <;> simp [TargetDistribution.set, TargetDistribution.get,
    TargetDistribution.total] <;> omega

/-- The base distribution of the source equals the even-split or profile
form of the spec, for every option combination. -/
theorem baseDistribution_eq_spec (o : PasswordOptions) (l : Nat) :
    baseDistribution (activeSets o) l = baseDistributionSpec (activeSets o) l := by
  rcases o with ⟨u, lo, n, sy⟩
  cases u <;> cases lo <;> cases n <;> cases sy <;>
    simp [activeSets, baseDistribution, baseDistributionSpec, splitEven,
      upperSet, lowerSet, numberSet, symbolSet, TargetDistribution.set,
      List.foldl]

/-- The per-class floors never exceed the requested length. -/
theorem baseDistribution_total_le (o : PasswordOptions) (l : Nat) :
    (baseDistribution (activeSets o) l).total ≤ l := by
  rcases o with ⟨u, lo, n, sy⟩
  cases u <;> cases lo <;> cases n <;> cases sy <;>
    simp [activeSets, baseDistribution, splitEven, upperSet, lowerSet,
      numberSet, symbolSet, TargetDistribution.set, TargetDistribution.total,
      List.foldl] <;>
    (try split_ifs) <;> (try simp [TargetDistribution.total]) <;> omega

/-- The computed target distribution always sums exactly to the
requested length. -/
theorem calc_total_eq (o : PasswordOptions) (l : Nat) :
    (calculateTargetDistribution (activeSets o) l).total = l := by
  unfold calculateTargetDistribution
  have hle := baseDistribution_total_le o l
  by_cases hr : l - (baseDistribution (activeSets o) l).total > 0
  · rw [if_pos hr, total_set_add]
    omega
  · rw [if_neg hr]
    omega

/-- C7 counterexample.  At length 9 with all four classes active the
base counts tie at 2 each and the remainder 1 goes to `symbols` — the
LAST class in class-iteration order — whereas the claim predicts the
FIRST such class (`uppercase`). -/
theorem target_tiebreak_counterexample :
    calculateTargetDistribution (activeSets defaultOptions) 9 =
      { uppercase := 2, lowercase := 2, numbers := 2, symbols := 3 } ∧
    targetDistributionClaimFirstTie (activeSets defaultOptions) 9 =
      { uppercase := 3, lowercase := 2, numbers := 2, symbols := 2 } ∧
    calculateTargetDistribution (activeSets defaultOptions) 9 ≠
      targetDistributionClaimFirstTie (activeSets defaultOptions) 9 := by
  refine ⟨rfl, rfl, by decide⟩

/-- C7 (amended).  For every option set and supported length, each class
count is the floor of `length * weight` under the length-selected
profile (even split when fewer than four classes are active), the whole
remainder goes to the single class with the largest count — on ties the
LAST such class in class-iteration order, not the first — and the
resulting distribution sums exactly to the requested length. -/
theorem target_distribution_amended (o : PasswordOptions) (l : Nat)
    (h8 : 8 ≤ l) (h128 : l ≤ 128) :
    calculateTargetDistribution (activeSets o) l =
      targetDistributionSpecLastTie (activeSets o) l ∧
    (calculateTargetDistribution (activeSets o) l).total = l := by
  constructor
  · simp only [calculateTargetDistribution, targetDistributionSpecLastTie]
    rw [baseDistribution_eq_spec, argmaxClass_eq_last]
  · exact calc_total_eq o l

/-- Witness for the amended C7 at length 9 with the default options. -/
theorem target_distribution_amended_witness :
    calculateTargetDistribution (activeSets defaultOptions) 9 =
      targetDistributionSpecLastTie (activeSets defaultOptions) 9 ∧
    (calculateTargetDistribution (activeSets defaultOptions) 9).total = 9 :=
  target_distribution_amended defaultOptions 9 (by decide) (by decide)


/-! ### List utility lemmas -/

/-- Nat folding with `min` never exceeds the initial value. -/
theorem foldl_min_le_init : ∀ (xs : List Nat) (a : Nat), xs.foldl Nat.min a ≤ a
  | [], a => Nat.le_refl a
  | x :: xs, a => Nat.le_trans (foldl_min_le_init xs (Nat.min a x)) (Nat.min_le_left a x)

/-- Nat folding with `min` is below every member. -/
theorem foldl_min_le_mem : ∀ (xs : List Nat) (a y : Nat), y ∈ xs → xs.foldl Nat.min a ≤ y := by
  intro xs
  induction xs with
  | nil => intro a y hy; cases hy
  | cons x t ih =>
    intro a y hy
    rcases List.mem_cons.mp hy with h | h
    · subst h
      exact Nat.le_trans (foldl_min_le_init t (Nat.min a y)) (Nat.min_le_right a y)
    · exact ih (Nat.min a x) y h

/-- The fold with `min` returns the initial value or a member. -/
theorem foldl_min_mem_or_init : ∀ (xs : List Nat) (a : Nat),
    xs.foldl Nat.min a = a ∨ xs.foldl Nat.min a ∈ xs := by
  intro xs
  induction xs with
  | nil => intro a; exact Or.inl rfl
  | cons x t ih =>
    intro a
    rcases ih (Nat.min a x) with h | h
    · rcases Nat.le_total a x with hax | hax
      · left
        rw [List.foldl_cons, h]
        simp [Nat.min_def, hax]
      · right
        rw [List.foldl_cons, h]
        have hmin : a.min x = x := by
          show min a x = x
          omega
        rw [hmin]
        exact List.mem_cons_self x t
    · right
      exact List.mem_cons_of_mem x h

/-- `minList` is below every member. -/
theorem minList_le {xs : List Nat} {y : Nat} (hy : y ∈ xs) : minList xs ≤ y := by
  cases xs with
  | nil => cases hy
  | cons x t =>
    rcases List.mem_cons.mp hy with h | h
    · subst h
      exact foldl_min_le_init t y
    · exact foldl_min_le_mem t x y h

/-- `minList` of a non-empty list is a member. -/
theorem minList_mem {xs : List Nat} (h : xs ≠ []) : minList xs ∈ xs := by
  cases xs with
  | nil => exact absurd rfl h
  | cons x t =>
    rcases foldl_min_mem_or_init t x with h1 | h1
    · rw [minList, h1]
      exact List.mem_cons_self x t
    · exact List.mem_cons_of_mem x h1

/-- Indexing modulo the length lands in the list. -/
theorem getD_mod_mem {α : Type} (xs : List α) (h : xs ≠ []) (i : Nat) (d : α) :
    xs.getD (i % xs.length) d ∈ xs := by
  have hl : 0 < xs.length := List.length_pos.mpr h
  have hm : i % xs.length < xs.length := Nat.mod_lt _ hl
  rw [List.getD_eq_getElem xs d hm]
  exact List.getElem_mem hm

/-- Setting one entry trades the old entry count for the new one. -/
theorem count_set_add :
    ∀ (xs : List (Option Char)) (n : Nat) (x y : Option Char) (h : n < xs.length),
      (xs.set n x).count y + (if xs[n] = y then 1 else 0) =
        xs.count y + (if x = y then 1 else 0) := by
  intro xs
  induction xs with
  | nil => intro n x y h; cases h
  | cons a t ih =>
    intro n x y h
    cases n with
    | zero =>
      simp only [List.set, List.count_cons, List.getElem_cons_zero]
      by_cases hay : a = y <;> by_cases hxy : x = y <;>
        simp [hay, hxy] <;> omega
    | succ m =>
      have hm : m < t.length := Nat.lt_of_succ_lt_succ h
      have := ih m x y hm
      simp only [List.set, List.count_cons, List.getElem_cons_succ]
      by_cases hay : a = y <;> simp [hay] <;> omega

/-- Setting one entry trades the old entry's predicate for the new one. -/
theorem countP_set_add {α : Type} (p : α → Bool) :
    ∀ (xs : List α) (n : Nat) (x : α) (h : n < xs.length),
      (xs.set n x).countP p + (if p xs[n] then 1 else 0) =
        xs.countP p + (if p x then 1 else 0) := by
  intro xs
  induction xs with
  | nil => intro n x h; cases h
  | cons a t ih =>
    intro n x h
    cases n with
    | zero =>
      simp only [List.set, List.countP_cons, List.getElem_cons_zero]
      by_cases ha : p a <;> by_cases hx : p x <;> simp [ha, hx] <;> omega
    | succ m =>
      have hm : m < t.length := Nat.lt_of_succ_lt_succ h
      have := ih m x hm
      simp only [List.set, List.countP_cons, List.getElem_cons_succ]
      by_cases ha : p a <;> simp [ha] <;> omega


/-- Number of already-filled password positions. -/
def filled (pw : List (Option Char)) : Nat := pw.countP (fun x => x.isSome)

/-- Indicator sum over a list not containing the element is zero. -/
theorem sum_ind_eq_zero {pool : List Char} {c : Char} (h : c ∉ pool) :
    (pool.map (fun x => if x = c then 1 else 0)).sum = 0 := by
  induction pool with
  | nil => rfl
  | cons a t ih =>
    have ha : a ≠ c := fun he => h (he ▸ List.mem_cons_self a t)
    have ht : c ∉ t := fun hm => h (List.mem_cons_of_mem a hm)
    simp [ha, ih ht]

/-- Indicator sum over a duplicate-free list is at most one. -/
theorem sum_ind_le_one {pool : List Char} (hnd : pool.Nodup) (c : Char) :
    (pool.map (fun x => if x = c then 1 else 0)).sum ≤ 1 := by
  induction pool with
  | nil => exact Nat.zero_le 1
  | cons a t ih =>
    rcases List.nodup_cons.mp hnd with ⟨hna, hndt⟩
    by_cases hac : a = c
    · subst hac
      simp [sum_ind_eq_zero hna]
    · simpa [hac] using ih hndt

/-- Splitting the head off the counted list splits the count sum. -/
theorem sum_count_cons (pool : List Char) (x : Option Char) (t : List (Option Char)) :
    (pool.map (fun c => (x :: t).count (some c))).sum =
      (pool.map (fun c => t.count (some c))).sum +
      (pool.map (fun c => if x = some c then 1 else 0)).sum := by
  induction pool with
  | nil => rfl
  | cons p ps ihp =>
    simp only [List.map_cons, List.sum_cons]
    rw [ihp, List.count_cons]
    by_cases hx : x = some p <;> simp [hx] <;> try omega

/-- Sum of the per-character counts over a duplicate-free pool never
exceeds the number of filled positions. -/
theorem sum_count_le_filled (pool : List Char) (hnd : pool.Nodup) :
    ∀ pw : List (Option Char),
      (pool.map (fun c => pw.count (some c))).sum ≤ filled pw := by
  intro pw
  induction pw with
  | nil => simp [filled]
  | cons x t ih =>
    rw [sum_count_cons]
    rcases x with _ | c0
    · have hz : (pool.map (fun c => (none : Option Char) = some c)).length = pool.length := by
        simp
      have : (pool.map (fun c => if (none : Option Char) = some c then 1 else 0)).sum = 0 := by
        induction pool with
        | nil => rfl
        | cons p ps ihp => simpa using ihp
      rw [this]
      simpa [filled] using ih
    · have hone : (pool.map (fun c => if (some c0 : Option Char) = some c then 1 else 0)).sum ≤ 1 := by
        have : (pool.map (fun c => if (some c0 : Option Char) = some c then 1 else 0)) =
            (pool.map (fun c => if c = c0 then 1 else 0)) := by
          apply List.map_congr_left
          intro a _
          by_cases hac : a = c0
          · simp [hac]
          · have : (some c0 : Option Char) ≠ some a := by
              intro he
              exact hac (Option.some.inj he).symm
            simp [hac, this]
        rw [this]
        exact sum_ind_le_one hnd c0
      have hf : filled (some c0 :: t) = filled t + 1 := by
        simp [filled, List.countP_cons]
      rw [hf]
      omega

/-- A position holding `none` keeps the fill count strictly below the
length. -/
theorem filled_lt_of_none {pw : List (Option Char)} {n : Nat} (h : n < pw.length)
    (he : pw[n] = none) : filled pw < pw.length := by
  rcases Nat.lt_or_ge (filled pw) pw.length with hlt | hge
  · exact hlt
  · exfalso
    have heq : filled pw = pw.length :=
      Nat.le_antisymm (List.countP_le_length _) hge
    have hall := List.countP_eq_length.mp heq
    have := hall pw[n] (List.getElem_mem h)
    rw [he] at this
    simp at this

/-- Writing a character into an empty position raises the fill count by
one. -/
theorem filled_set_some {pw : List (Option Char)} {n : Nat} (h : n < pw.length)
    (he : pw[n] = none) (c : Char) :
    filled (pw.set n (some c)) = filled pw + 1 := by
  have hadd := countP_set_add (fun x => x.isSome) pw n (some c) h
  rw [he] at hadd
  simp at hadd
  unfold filled
  omega

/-- Writing a character into an empty position adds one occurrence of
exactly that character. -/
theorem count_set_some {pw : List (Option Char)} {n : Nat} (h : n < pw.length)
    (he : pw[n] = none) (c d : Char) :
    (pw.set n (some c)).count (some d) =
      pw.count (some d) + (if c = d then 1 else 0) := by
  have hadd := count_set_add pw n (some c) (some d) h
  rw [he] at hadd
  by_cases hcd : c = d
  · subst hcd
    simp at hadd ⊢
    omega
  · simp [hcd] at hadd ⊢
    omega

/-- A list of values all at least `m` sums to at least `length * m`. -/
theorem mul_le_sum {xs : List Nat} {m : Nat} (h : ∀ y ∈ xs, m ≤ y) :
    xs.length * m ≤ xs.sum := by
  induction xs with
  | nil => simp
  | cons x t ih =>
    have hx := h x (List.mem_cons_self x t)
    have ht := ih (fun y hy => h y (List.mem_cons_of_mem x hy))
    simp only [List.length_cons, List.sum_cons]
    calc (t.length + 1) * m = m + t.length * m := by ring
    _ ≤ x + t.sum := Nat.add_le_add hx ht


/-! ### Pool facts -/

/-- Every active set is one of the four pool entries. -/
theorem activeSets_mem {o : PasswordOptions} {s : CharacterSet}
    (hs : s ∈ activeSets o) :
    s = upperSet ∨ s = lowerSet ∨ s = numberSet ∨ s = symbolSet := by
  rcases o with ⟨u, lo, n, sy⟩
  cases u <;> cases lo <;> cases n <;> cases sy <;>
    simp [activeSets] at hs <;> tauto

/-- Every pool is duplicate-free. -/
theorem activeSets_nodup {o : PasswordOptions} {s : CharacterSet}
    (hs : s ∈ activeSets o) : s.chars.Nodup := by
  rcases activeSets_mem hs with h | h | h | h <;> subst h <;> decide

/-- Every pool has at least ten characters. -/
theorem activeSets_len10 {o : PasswordOptions} {s : CharacterSet}
    (hs : s ∈ activeSets o) : 10 ≤ s.chars.length := by
  rcases activeSets_mem hs with h | h | h | h <;> subst h <;> decide

/-- The active-set list is never empty. -/
theorem activeSets_ne_nil (o : PasswordOptions) : activeSets o ≠ [] := by
  rcases o with ⟨u, lo, n, sy⟩
  cases u <;> cases lo <;> cases n <;> cases sy <;> simp [activeSets]

/-! ### The selection function -/

/-- The selected character comes from the pool, and is either below the
repetition limit or of globally minimal usage in the pool. -/
theorem selectChar_spec (hash avail : List Char) (usage : Char → Nat)
    (maxRep off seed : Nat) (hne : avail ≠ []) :
    (selectChar hash avail usage maxRep off seed).1 ∈ avail ∧
    (usage (selectChar hash avail usage maxRep off seed).1 < maxRep ∨
      usage (selectChar hash avail usage maxRep off seed).1 =
        minList (avail.map usage)) := by
  unfold selectChar
  by_cases hemp : (avail.filter (fun c => usage c < maxRep)).isEmpty
  · rw [if_pos hemp]
    set m := minList (avail.map usage) with hm
    set lc := avail.filter (fun c => usage c = m) with hlc
    have hmem : m ∈ avail.map usage := by
      apply minList_mem
      intro hmap
      exact hne (List.map_eq_nil_iff.mp hmap)
    obtain ⟨c0, hc0mem, hc0⟩ := List.mem_map.mp hmem
    have hlcne : lc ≠ [] := by
      intro hnil
      have : c0 ∈ lc := by
        rw [hlc]
        exact List.mem_filter.mpr ⟨hc0mem, by simp [hc0]⟩
      rw [hnil] at this
      cases this
    have hgd := getD_mod_mem lc hlcne
      ((getHashValue hash off (seed + 1000)).1) 'A'
    have hfil := List.mem_filter.mp hgd
    refine ⟨hfil.1, Or.inr ?_⟩
    simpa using hfil.2
  · rw [if_neg hemp]
    have hune : (avail.filter (fun c => usage c < maxRep)) ≠ [] := by
      intro hnil
      rw [hnil] at hemp
      exact hemp rfl
    have hgd := getD_mod_mem (avail.filter (fun c => usage c < maxRep)) hune
      ((getHashValue hash off seed).1) 'A'
    have hfil := List.mem_filter.mp hgd
    refine ⟨hfil.1, Or.inl ?_⟩
    simpa using hfil.2

/-- Placing the selected character never pushes its usage beyond
`maxRep + 1`: the under-limit branch stays below the budget, and the
fallback branch picks a least-used character, whose count is below the
cap because the pool is large enough relative to the filled positions. -/
theorem select_bump_le_cap (hash avail : List Char) (usage : Char → Nat)
    (pw : List (Option Char)) (maxRep off seed l : Nat)
    (hnd : avail.Nodup) (h10 : 10 ≤ avail.length)
    (hcount : ∀ c, usage c = pw.count (some c))
    (hfl : filled pw < l) (hart : l ≤ 10 * (maxRep + 1)) :
    usage (selectChar hash avail usage maxRep off seed).1 + 1 ≤ maxRep + 1 := by
  have hne : avail ≠ [] := by
    intro hnil
    rw [hnil] at h10
    simp at h10
  obtain ⟨hmem, hdisj⟩ := selectChar_spec hash avail usage maxRep off seed hne
  rcases hdisj with hlt | heq
  · omega
  · by_contra hcon
    have hmge : minList (avail.map usage) ≥ maxRep + 1 := by omega
    have hall : ∀ y ∈ avail.map usage, maxRep + 1 ≤ y := by
      intro y hy
      exact Nat.le_trans hmge (minList_le hy)
    have hsum : (avail.map usage).length * (maxRep + 1) ≤ (avail.map usage).sum :=
      mul_le_sum hall
    rw [List.length_map] at hsum
    have hsum2 : (avail.map usage).sum = (avail.map (fun c => pw.count (some c))).sum := by
      congr 1
      exact List.map_congr_left (fun c _ => hcount c)
    have hle : (avail.map (fun c => pw.count (some c))).sum ≤ filled pw :=
      sum_count_le_filled avail hnd pw
    have h10cap : 10 * (maxRep + 1) ≤ avail.length * (maxRep + 1) :=
      Nat.mul_le_mul_right _ h10
    omega


/-! ### Placement-pass invariants -/

/-- Invariant of the mapper state: password length is fixed, the usage
map tracks the per-character counts of the filled entries, and no
character exceeds the cap. -/
structure MapInv (l cap : Nat) (st : MapSt) : Prop where
  hlen : st.pw.length = l
  hcount : ∀ c : Char, st.usage c = st.pw.count (some c)
  hcap : ∀ c : Char, st.usage c ≤ cap

/-- Probed positions stay inside the password. -/
theorem probeLoop_fst_lt (hash : List Char) (pw : List (Option Char))
    (l seedBase : Nat) (hl : 0 < l) :
    ∀ fuel attempts off, (probeLoop hash pw l seedBase fuel attempts off).1 < l := by
  intro fuel
  induction fuel with
  | zero =>
    intro attempts off
    simp only [probeLoop]
    exact Nat.mod_lt _ hl
  | succ f ih =>
    intro attempts off
    simp only [probeLoop]
    split
    · exact ih (attempts + 1) _
    · exact Nat.mod_lt _ hl

/-- The probe loop exits on a free position or with its attempt counter
exhausted. -/
theorem probeLoop_free_or (hash : List Char) (pw : List (Option Char))
    (l seedBase : Nat) :
    ∀ fuel attempts off,
      (pw.getD (probeLoop hash pw l seedBase fuel attempts off).1 none).isSome = false ∨
      (probeLoop hash pw l seedBase fuel attempts off).2.1 = attempts + fuel + 1 := by
  intro fuel
  induction fuel with
  | zero =>
    intro attempts off
    right
    simp only [probeLoop]
  | succ f ih =>
    intro attempts off
    simp only [probeLoop]
    split
    · rcases ih (attempts + 1) _ with h | h
      · exact Or.inl h
      · right
        rw [h]
        omega
    · rename_i hif
      left
      simpa using hif

/-- The chosen position is inside the password. -/
theorem choosePosition_lt (hash : List Char) (pw : List (Option Char))
    (l sb off : Nat) (hl : 0 < l) :
    (choosePosition hash pw l sb off).1 < l := by
  simp only [choosePosition]
  split
  · cases hff : firstFreePos pw l with
    | none => exact probeLoop_fst_lt hash pw l sb hl _ _ _
    | some j =>
      have hmem := List.mem_of_find?_eq_some hff
      exact List.mem_range.mp hmem
  · exact probeLoop_fst_lt hash pw l sb hl _ _ _

/-- As long as one position is still empty, the chosen position is an
empty one. -/
theorem choosePosition_free (hash : List Char) (pw : List (Option Char))
    (l sb off : Nat) (hl : 0 < l) (hlen : pw.length = l)
    (hfl : filled pw < l) :
    pw.getD (choosePosition hash pw l sb off).1 none = none := by
  simp only [choosePosition]
  split
  · rename_i hatt
    have hex : ∃ j, j < l ∧ pw.getD j none = none := by
      by_contra hno
      push_neg at hno
      have hall : ∀ x ∈ pw, x.isSome = true := by
        intro x hx
        obtain ⟨j, hj, hxj⟩ := List.mem_iff_getElem.mp hx
        have hjl : j < l := hlen ▸ hj
        have := hno j hjl
        rw [List.getD_eq_getElem pw none hj, hxj] at this
        cases x with
        | none => exact absurd rfl this
        | some c => rfl
      have : filled pw = pw.length := List.countP_eq_length.mpr hall
      omega
    obtain ⟨j, hjl, hje⟩ := hex
    cases hff : firstFreePos pw l with
    | none =>
      exfalso
      have := List.find?_eq_none.mp hff j (List.mem_range.mpr hjl)
      rw [hje] at this
      simp at this
    | some j2 =>
      have hpred := List.find?_some hff
      have hj2l : j2 < l := List.mem_range.mp (List.mem_of_find?_eq_some hff)
      rcases hgd : pw.getD j2 none with _ | c
      · rfl
      · exfalso
        rw [hgd] at hpred
        simp at hpred
  · rename_i hatt
    rcases probeLoop_free_or hash pw l sb (2 * l - 1) 0 off with h | h
    · rcases hgd : pw.getD (probeLoop hash pw l sb (2 * l - 1) 0 off).1 none with _ | c
      · rfl
      · rw [hgd] at h
        simp at h
    · exfalso
      rw [h] at hatt
      omega

/-- One placement slot: the invariant is preserved, and exactly one new
position is filled as long as any position is still empty. -/
theorem placeSlot_step (hash : List Char) (l maxRep : Nat) (pool : List Char)
    (tcode : Nat) (st : MapSt) (i : Nat)
    (hl : 0 < l) (hnd : pool.Nodup) (h10 : 10 ≤ pool.length)
    (hart : l ≤ 10 * (maxRep + 1))
    (hInv : MapInv l (maxRep + 1) st) :
    MapInv l (maxRep + 1) (placeSlot hash l maxRep pool tcode st i) ∧
    filled (placeSlot hash l maxRep pool tcode st i).pw =
      filled st.pw + (if filled st.pw < l then 1 else 0) := by
  by_cases hfl : filled st.pw < l
  · -- a free position exists; the slot writes it
    have hfree := choosePosition_free hash st.pw l (tcode * 1000 + i * 100) st.off
      hl hInv.hlen hfl
    have hplt := choosePosition_lt hash st.pw l (tcode * 1000 + i * 100) st.off hl
    have hplt2 : (choosePosition hash st.pw l (tcode * 1000 + i * 100) st.off).1 <
        st.pw.length := hInv.hlen ▸ hplt
    have hfree2 : st.pw[(choosePosition hash st.pw l (tcode * 1000 + i * 100) st.off).1] =
        none := by
      rw [← List.getD_eq_getElem st.pw none hplt2]
      exact hfree
    have hcond : (st.pw.getD
        (choosePosition hash st.pw l (tcode * 1000 + i * 100) st.off).1 none).isSome =
        false := by
      rw [hfree]
      rfl
    have hunfold : placeSlot hash l maxRep pool tcode st i =
        (let sel := selectChar hash pool st.usage maxRep
            (choosePosition hash st.pw l (tcode * 1000 + i * 100) st.off).2
            (tcode * 2000 + i * 300)
         { pw := st.pw.set (choosePosition hash st.pw l (tcode * 1000 + i * 100) st.off).1
              (some sel.1),
           usage := bumpUsage st.usage sel.1,
           off := sel.2 }) := by
      simp only [placeSlot]
      rw [if_neg]
      rw [hcond]
      simp
    rw [hunfold, if_pos hfl]
    set sel := selectChar hash pool st.usage maxRep
        (choosePosition hash st.pw l (tcode * 1000 + i * 100) st.off).2
        (tcode * 2000 + i * 300) with hsel
    have hbump := select_bump_le_cap hash pool st.usage st.pw maxRep
      (choosePosition hash st.pw l (tcode * 1000 + i * 100) st.off).2
      (tcode * 2000 + i * 300) l hnd h10 hInv.hcount hfl hart
    refine ⟨⟨?_, ?_, ?_⟩, ?_⟩
    · simp only [List.length_set]
      exact hInv.hlen
    · intro d
      have hcs := count_set_some hplt2 hfree2 sel.1 d
      simp only [bumpUsage]
      rw [hcs]
      by_cases hd : d = sel.1
      · subst hd
        simpa using hInv.hcount sel.1
      · have hne : ¬(sel.1 = d) := fun he => hd he.symm
        simp [hd, hne, hInv.hcount d]
    · intro d
      simp only [bumpUsage]
      by_cases hd : d = sel.1
      · subst hd
        simpa using hbump
      · simp only [hd, if_false]
        exact hInv.hcap d
    · simp only []
      exact filled_set_some hplt2 hfree2 sel.1
  · -- the password is already full; the slot only advances the cursor
    have hfull : filled st.pw = l := by
      have hle : filled st.pw ≤ st.pw.length := List.countP_le_length _
      rw [hInv.hlen] at hle
      omega
    have hall : ∀ x ∈ st.pw, x.isSome = true := by
      apply List.countP_eq_length.mp
      rw [hInv.hlen]
      exact hfull
    have hplt : (choosePosition hash st.pw l (tcode * 1000 + i * 100) st.off).1 <
        st.pw.length :=
      hInv.hlen ▸ choosePosition_lt hash st.pw l (tcode * 1000 + i * 100) st.off hl
    have hsome : (st.pw.getD
        (choosePosition hash st.pw l (tcode * 1000 + i * 100) st.off).1 none).isSome = true := by
      rw [List.getD_eq_getElem st.pw none hplt]
      exact hall _ (List.getElem_mem hplt)
    have hunfold : placeSlot hash l maxRep pool tcode st i =
        { st with off := (choosePosition hash st.pw l (tcode * 1000 + i * 100) st.off).2 } := by
      simp only [placeSlot]
      rw [if_pos]
      rw [hsome]
    rw [hunfold, if_neg hfl]
    exact ⟨⟨hInv.hlen, hInv.hcount, hInv.hcap⟩, rfl⟩


/-- Total number of placement slots over the active sets. -/
def slotTotal (active : List CharacterSet) (d : TargetDistribution) : Nat :=
  (active.map (fun s => d.get s.ctype)).sum

/-- Folding `placeSlot` over `tc` slots fills exactly `tc` new
positions while preserving the invariant. -/
theorem placeSlots_fold (hash : List Char) (l maxRep : Nat) (pool : List Char)
    (tcode : Nat) (hl : 0 < l) (hnd : pool.Nodup) (h10 : 10 ≤ pool.length)
    (hart : l ≤ 10 * (maxRep + 1)) :
    ∀ (tc : Nat) (st : MapSt), MapInv l (maxRep + 1) st →
      filled st.pw + tc ≤ l →
      MapInv l (maxRep + 1)
        ((List.range tc).foldl (placeSlot hash l maxRep pool tcode) st) ∧
      filled ((List.range tc).foldl (placeSlot hash l maxRep pool tcode) st).pw =
        filled st.pw + tc := by
  intro tc
  induction tc with
  | zero =>
    intro st hInv hle
    exact ⟨hInv, rfl⟩
  | succ m ih =>
    intro st hInv hle
    obtain ⟨hInv1, hfill1⟩ := ih st hInv (by omega)
    rw [List.range_succ, List.foldl_append, List.foldl_cons, List.foldl_nil]
    obtain ⟨hInv2, hfill2⟩ := placeSlot_step hash l maxRep pool tcode
      ((List.range m).foldl (placeSlot hash l maxRep pool tcode) st) m
      hl hnd h10 hart hInv1
    refine ⟨hInv2, ?_⟩
    rw [hfill2, hfill1, if_pos (by omega)]
    omega

/-- The placement pass fills exactly `slotTotal` positions and
preserves the invariant. -/
theorem placement_inv_filled (hash : List Char) (l maxRep : Nat)
    (d : TargetDistribution) (hl : 0 < l) (hart : l ≤ 10 * (maxRep + 1)) :
    ∀ (active : List CharacterSet) (st : MapSt),
      (∀ s ∈ active, s.chars.Nodup ∧ 10 ≤ s.chars.length) →
      MapInv l (maxRep + 1) st →
      filled st.pw + slotTotal active d ≤ l →
      MapInv l (maxRep + 1) (fillPasswordWithDistribution hash active d l maxRep st) ∧
      filled (fillPasswordWithDistribution hash active d l maxRep st).pw =
        filled st.pw + slotTotal active d := by
  intro active
  induction active with
  | nil =>
    intro st _ hInv _
    exact ⟨hInv, rfl⟩
  | cons s rest ih =>
    intro st hpool hInv hle
    have hs := hpool s (List.mem_cons_self s rest)
    have hsum : slotTotal (s :: rest) d = d.get s.ctype + slotTotal rest d := by
      simp [slotTotal]
    rw [hsum] at hle
    simp only [fillPasswordWithDistribution, List.foldl_cons]
    obtain ⟨hInv1, hfill1⟩ := placeSlots_fold hash l maxRep s.chars s.ctype.code
      hl hs.1 hs.2 hart (d.get s.ctype) st hInv (by omega)
    have hrest : ∀ s2 ∈ rest, s2.chars.Nodup ∧ 10 ≤ s2.chars.length :=
      fun s2 hs2 => hpool s2 (List.mem_cons_of_mem s hs2)
    obtain ⟨hInv2, hfill2⟩ := ih (placeSet hash l maxRep d st s) hrest
      (by simpa [placeSet] using hInv1)
      (by simp only [placeSet]; rw [hfill1]; omega)
    refine ⟨?_, ?_⟩
    · simpa [fillPasswordWithDistribution, placeSet] using hInv2
    · have hps : filled (placeSet hash l maxRep d st s).pw =
          filled st.pw + d.get s.ctype := by
        simpa only [placeSet] using hfill1
      simp only [fillPasswordWithDistribution] at hfill2 ⊢
      rw [hfill2, hps, hsum]
      omega


/-! ### Fill pass and shuffle -/

/-- When every position is already filled, the fill pass does nothing. -/
theorem fill_fold_noop (hash : List Char) (active : List CharacterSet)
    (l maxRep : Nat) :
    ∀ (idxs : List Nat) (st : MapSt), st.pw.length = l →
      (∀ x ∈ st.pw, x.isSome = true) →
      (∀ i ∈ idxs, i < l) →
      idxs.foldl (fillStep hash l maxRep active) st = st := by
  intro idxs
  induction idxs with
  | nil => intro st _ _ _; rfl
  | cons i rest ih =>
    intro st hlen hall hidx
    have hil : i < st.pw.length := hlen ▸ hidx i (List.mem_cons_self i rest)
    have hsome : (st.pw.getD i none).isSome = true := by
      rw [List.getD_eq_getElem st.pw none hil]
      exact hall _ (List.getElem_mem hil)
    have hstep : fillStep hash l maxRep active st i = st := by
      simp only [fillStep]
      rw [if_pos]
      rw [hsome]
    rw [List.foldl_cons, hstep]
    exact ih st hlen hall (fun j hj => hidx j (List.mem_cons_of_mem i hj))

/-- Specialization to the full index range. -/
theorem fillRemaining_noop (hash : List Char) (active : List CharacterSet)
    (l maxRep : Nat) (st : MapSt) (hlen : st.pw.length = l)
    (hall : ∀ x ∈ st.pw, x.isSome = true) :
    fillRemainingPositions hash active l maxRep st = st := by
  unfold fillRemainingPositions
  exact fill_fold_noop hash active l maxRep (List.range l) st hlen hall
    (fun i hi => List.mem_range.mp hi)

/-- Swapping two entries keeps every count. -/
theorem swapL_count (pw : List (Option Char)) (i j : Nat)
    (hi : i < pw.length) (hj : j < pw.length) (y : Option Char) :
    (swapL pw i j).count y = pw.count y := by
  unfold swapL
  rw [List.getD_eq_getElem pw none hi, List.getD_eq_getElem pw none hj]
  show ((pw.set i pw[j]).set j pw[i]).count y = pw.count y
  have hsetlen : j < (pw.set i pw[j]).length := by
    rw [List.length_set]
    exact hj
  have h1 := count_set_add (pw.set i pw[j]) j pw[i] y hsetlen
  have h2 := count_set_add pw i pw[j] y hi
  have hget : (pw.set i pw[j])[j] = pw[j] := by
    rw [List.getElem_set]
    by_cases hij : i = j
    · simp [hij]
    · simp [hij]
  rw [hget] at h1
  omega

/-- Swapping preserves the length. -/
theorem swapL_length (pw : List (Option Char)) (i j : Nat) :
    (swapL pw i j).length = pw.length := by
  simp [swapL]

/-- Swapping keeps every entry a filled one. -/
theorem swapL_all_some (pw : List (Option Char)) (i j : Nat)
    (hi : i < pw.length) (hj : j < pw.length)
    (hall : ∀ x ∈ pw, x.isSome = true) :
    ∀ x ∈ swapL pw i j, x.isSome = true := by
  intro x hx
  unfold swapL at hx
  rcases List.mem_or_eq_of_mem_set hx with hx1 | hx1
  · rcases List.mem_or_eq_of_mem_set hx1 with hx2 | hx2
    · exact hall x hx2
    · subst hx2
      rw [List.getD_eq_getElem pw none hj]
      exact hall _ (List.getElem_mem hj)
  · subst hx1
    rw [List.getD_eq_getElem pw none hi]
    exact hall _ (List.getElem_mem hi)

/-- The shuffle folds keep length, counts and filledness. -/
theorem shuffle_fold_preserves (hash : List Char) (l : Nat) :
    ∀ (idxs : List Nat) (st : List (Option Char) × Nat),
      (∀ i ∈ idxs, i < l) → st.1.length = l →
      ((idxs.foldl (shuffleStep hash) st).1.length = l ∧
       (∀ y, (idxs.foldl (shuffleStep hash) st).1.count y = st.1.count y) ∧
       ((∀ x ∈ st.1, x.isSome = true) →
        ∀ x ∈ (idxs.foldl (shuffleStep hash) st).1, x.isSome = true)) := by
  intro idxs
  induction idxs with
  | nil =>
    intro st _ hlen
    exact ⟨hlen, fun y => rfl, fun h => h⟩
  | cons i rest ih =>
    intro st hidx hlen
    have hil : i < st.1.length := hlen ▸ hidx i (List.mem_cons_self i rest)
    have hjl : (getHashValue hash st.2 (i * 400)).1 % (i + 1) < st.1.length := by
      have : (getHashValue hash st.2 (i * 400)).1 % (i + 1) < i + 1 :=
        Nat.mod_lt _ (Nat.succ_pos i)
      omega
    have hstep : (shuffleStep hash st i).1 =
        swapL st.1 i ((getHashValue hash st.2 (i * 400)).1 % (i + 1)) := rfl
    have hlen2 : (shuffleStep hash st i).1.length = l := by
      rw [hstep, swapL_length]
      exact hlen
    obtain ⟨hl3, hc3, hs3⟩ := ih (shuffleStep hash st i)
      (fun j hj => hidx j (List.mem_cons_of_mem i hj)) hlen2
    refine ⟨by simpa using hl3, ?_, ?_⟩
    · intro y
      rw [List.foldl_cons, hc3 y, hstep, swapL_count st.1 _ _ hil hjl]
    · intro hall
      rw [List.foldl_cons]
      apply hs3
      rw [hstep]
      exact swapL_all_some st.1 _ _ hil hjl hall

/-- Counting through `filterMap id` counts the wrapped character. -/
theorem count_filterMap_id :
    ∀ (xs : List (Option Char)) (c : Char),
      (xs.filterMap id).count c = xs.count (some c) := by
  intro xs
  induction xs with
  | nil => intro c; rfl
  | cons x t ih =>
    intro c
    cases x with
    | none =>
      simp only [List.filterMap_cons, id, List.count_cons]
      rw [ih]
      simp
    | some a =>
      simp only [List.filterMap_cons, id, List.count_cons]
      rw [ih c]
      by_cases hac : a = c <;> simp [hac]

/-- With every entry filled, `filterMap id` keeps the length. -/
theorem length_filterMap_all_some :
    ∀ (xs : List (Option Char)), (∀ x ∈ xs, x.isSome = true) →
      (xs.filterMap id).length = xs.length := by
  intro xs
  induction xs with
  | nil => intro _; rfl
  | cons x t ih =>
    intro hall
    cases x with
    | none =>
      have := hall none (List.mem_cons_self none t)
      simp at this
    | some a =>
      simp only [List.filterMap_cons, id, List.length_cons]
      rw [ih (fun y hy => hall y (List.mem_cons_of_mem _ hy))]

/-- Bounding a `foldr max`. -/
theorem foldr_max_le {xs : List Nat} {b : Nat} (h : ∀ x ∈ xs, x ≤ b) :
    xs.foldr max 0 ≤ b := by
  induction xs with
  | nil => exact Nat.zero_le b
  | cons x t ih =>
    simp only [List.foldr_cons]
    have hx := h x (List.mem_cons_self x t)
    have ht := ih (fun y hy => h y (List.mem_cons_of_mem x hy))
    omega

/-- Arithmetic behind the repetition cap: ten characters per pool always
cover the requested length. -/
theorem len_le_ten_cap (l : Nat) (h8 : 8 ≤ l) (h128 : l ≤ 128) :
    l ≤ 10 * (calculateMaxRepetitions l + 1) := by
  unfold calculateMaxRepetitions
  split_ifs <;> omega


/-! ### The slot total equals the length -/

/-- Setting a different class leaves a field unchanged. -/
theorem get_set_ne (d : TargetDistribution) (k t : CharType) (v : Nat)
    (h : k ≠ t) : (d.set k v).get t = d.get t := by
  cases k <;> cases t <;> first | exact absurd rfl h | rfl

/-- The argmax class holds a maximal count. -/
theorem get_argmax_ge (d : TargetDistribution) (t : CharType) :
    d.get t ≤ d.get (argmaxClass d) := by
  rw [argmaxClass_eq_last]
  rcases d with ⟨u, lo, n, sy⟩
  unfold lastArgmaxClass
  split_ifs <;> cases t <;> simp_all [TargetDistribution.get] <;> omega

/-- A class whose base count is zero receives no remainder when some
other class has a positive base count. -/
theorem calc_get_zero (active : List CharacterSet) (l : Nat) (t : CharType)
    (hbz : (baseDistribution active l).get t = 0)
    (hex : ∃ t2, 1 ≤ (baseDistribution active l).get t2) :
    (calculateTargetDistribution active l).get t = 0 := by
  simp only [calculateTargetDistribution]
  by_cases hr : l - (baseDistribution active l).total > 0
  · rw [if_pos hr]
    have hk : argmaxClass (baseDistribution active l) ≠ t := by
      intro he
      obtain ⟨t2, ht2⟩ := hex
      have hge := get_argmax_ge (baseDistribution active l) t2
      rw [he, hbz] at hge
      omega
    rw [get_set_ne _ _ _ _ hk]
    exact hbz
  · rw [if_neg hr]
    exact hbz

/-- Class tag of the uppercase pool entry. -/
theorem upperSet_ctype : upperSet.ctype = CharType.uppercase := rfl

/-- Class tag of the lowercase pool entry. -/
theorem lowerSet_ctype : lowerSet.ctype = CharType.lowercase := rfl

/-- Class tag of the numbers pool entry. -/
theorem numberSet_ctype : numberSet.ctype = CharType.numbers := rfl

/-- Class tag of the symbols pool entry. -/
theorem symbolSet_ctype : symbolSet.ctype = CharType.symbols := rfl

/-- The placement slots over the active sets sum exactly to the
requested length: inactive classes keep a zero count, so the four-field
total (which is the length) is carried entirely by the active classes. -/
theorem slotTotal_calc (o : PasswordOptions) (l : Nat) (h8 : 8 ≤ l) :
    slotTotal (activeSets o) (calculateTargetDistribution (activeSets o) l) = l := by
  have ht := calc_total_eq o l
  rcases o with ⟨u, lo, n, sy⟩
  simp only [TargetDistribution.total] at ht
  cases u <;> cases lo <;> cases n <;> cases sy
  · simp only [activeSets] at ht ⊢
    norm_num at ht ⊢
    simp only [slotTotal, List.map_cons, List.map_nil, List.sum_cons,
      List.sum_nil, upperSet_ctype, lowerSet_ctype, numberSet_ctype,
      symbolSet_ctype, TargetDistribution.get]
    omega
  · simp only [activeSets] at ht ⊢
    norm_num at ht ⊢
    have hb : baseDistribution [symbolSet] l = ⟨0, 0, 0, l / 1⟩ := by
      simp [baseDistribution, upperSet, lowerSet, numberSet, symbolSet,
        TargetDistribution.set]
    have hex : ∃ t2, 1 ≤ (baseDistribution [symbolSet] l).get t2 := by
      refine ⟨CharType.symbols, ?_⟩
      rw [hb]
      simp only [TargetDistribution.get]
      omega
    have hzup : (calculateTargetDistribution [symbolSet] l).get CharType.uppercase = 0 := by
      apply calc_get_zero [symbolSet] l CharType.uppercase ?_ hex
      rw [hb]
      rfl
    have hzlow : (calculateTargetDistribution [symbolSet] l).get CharType.lowercase = 0 := by
      apply calc_get_zero [symbolSet] l CharType.lowercase ?_ hex
      rw [hb]
      rfl
    have hznum : (calculateTargetDistribution [symbolSet] l).get CharType.numbers = 0 := by
      apply calc_get_zero [symbolSet] l CharType.numbers ?_ hex
      rw [hb]
      rfl
    simp only [TargetDistribution.get] at hzup hzlow hznum
    simp only [slotTotal, List.map_cons, List.map_nil, List.sum_cons,
      List.sum_nil, upperSet_ctype, lowerSet_ctype, numberSet_ctype,
      symbolSet_ctype, TargetDistribution.get]
    omega
  · simp only [activeSets] at ht ⊢
    norm_num at ht ⊢
    have hb : baseDistribution [numberSet] l = ⟨0, 0, l / 1, 0⟩ := by
      simp [baseDistribution, upperSet, lowerSet, numberSet, symbolSet,
        TargetDistribution.set]
    have hex : ∃ t2, 1 ≤ (baseDistribution [numberSet] l).get t2 := by
      refine ⟨CharType.numbers, ?_⟩
      rw [hb]
      simp only [TargetDistribution.get]
      omega
    have hzup : (calculateTargetDistribution [numberSet] l).get CharType.uppercase = 0 := by
      apply calc_get_zero [numberSet] l CharType.uppercase ?_ hex
      rw [hb]
      rfl
    have hzlow : (calculateTargetDistribution [numberSet] l).get CharType.lowercase = 0 := by
      apply calc_get_zero [numberSet] l CharType.lowercase ?_ hex
      rw [hb]
      rfl
    have hzsym : (calculateTargetDistribution [numberSet] l).get CharType.symbols = 0 := by
      apply calc_get_zero [numberSet] l CharType.symbols ?_ hex
      rw [hb]
      rfl
    simp only [TargetDistribution.get] at hzup hzlow hzsym
    simp only [slotTotal, List.map_cons, List.map_nil, List.sum_cons,
      List.sum_nil, upperSet_ctype, lowerSet_ctype, numberSet_ctype,
      symbolSet_ctype, TargetDistribution.get]
    omega
  · simp only [activeSets] at ht ⊢
    norm_num at ht ⊢
    have hb : baseDistribution [numberSet, symbolSet] l = ⟨0, 0, l / 2, l / 2⟩ := by
      simp [baseDistribution, upperSet, lowerSet, numberSet, symbolSet,
        TargetDistribution.set]
    have hex : ∃ t2, 1 ≤ (baseDistribution [numberSet, symbolSet] l).get t2 := by
      refine ⟨CharType.numbers, ?_⟩
      rw [hb]
      simp only [TargetDistribution.get]
      omega
    have hzup : (calculateTargetDistribution [numberSet, symbolSet] l).get CharType.uppercase = 0 := by
      apply calc_get_zero [numberSet, symbolSet] l CharType.uppercase ?_ hex
      rw [hb]
      rfl
    have hzlow : (calculateTargetDistribution [numberSet, symbolSet] l).get CharType.lowercase = 0 := by
      apply calc_get_zero [numberSet, symbolSet] l CharType.lowercase ?_ hex
      rw [hb]
      rfl
    simp only [TargetDistribution.get] at hzup hzlow
    simp only [slotTotal, List.map_cons, List.map_nil, List.sum_cons,
      List.sum_nil, upperSet_ctype, lowerSet_ctype, numberSet_ctype,
      symbolSet_ctype, TargetDistribution.get]
    omega
  · simp only [activeSets] at ht ⊢
    norm_num at ht ⊢
    have hb : baseDistribution [lowerSet] l = ⟨0, l / 1, 0, 0⟩ := by
      simp [baseDistribution, upperSet, lowerSet, numberSet, symbolSet,
        TargetDistribution.set]
    have hex : ∃ t2, 1 ≤ (baseDistribution [lowerSet] l).get t2 := by
      refine ⟨CharType.lowercase, ?_⟩
      rw [hb]
      simp only [TargetDistribution.get]
      omega
    have hzup : (calculateTargetDistribution [lowerSet] l).get CharType.uppercase = 0 := by
      apply calc_get_zero [lowerSet] l CharType.uppercase ?_ hex
      rw [hb]
      rfl
    have hznum : (calculateTargetDistribution [lowerSet] l).get CharType.numbers = 0 := by
      apply calc_get_zero [lowerSet] l CharType.numbers ?_ hex
      rw [hb]
      rfl
    have hzsym : (calculateTargetDistribution [lowerSet] l).get CharType.symbols = 0 := by
      apply calc_get_zero [lowerSet] l CharType.symbols ?_ hex
      rw [hb]
      rfl
    simp only [TargetDistribution.get] at hzup hznum hzsym
    simp only [slotTotal, List.map_cons, List.map_nil, List.sum_cons,
      List.sum_nil, upperSet_ctype, lowerSet_ctype, numberSet_ctype,
      symbolSet_ctype, TargetDistribution.get]
    omega
  · simp only [activeSets] at ht ⊢
    norm_num at ht ⊢
    have hb : baseDistribution [lowerSet, symbolSet] l = ⟨0, l / 2, 0, l / 2⟩ := by
      simp [baseDistribution, upperSet, lowerSet, numberSet, symbolSet,
        TargetDistribution.set]
    have hex : ∃ t2, 1 ≤ (baseDistribution [lowerSet, symbolSet] l).get t2 := by
      refine ⟨CharType.lowercase, ?_⟩
      rw [hb]
      simp only [TargetDistribution.get]
      omega
    have hzup : (calculateTargetDistribution [lowerSet, symbolSet] l).get CharType.uppercase = 0 := by
      apply calc_get_zero [lowerSet, symbolSet] l CharType.uppercase ?_ hex
      rw [hb]
      rfl
    have hznum : (calculateTargetDistribution [lowerSet, symbolSet] l).get CharType.numbers = 0 := by
      apply calc_get_zero [lowerSet, symbolSet] l CharType.numbers ?_ hex
      rw [hb]
      rfl
    simp only [TargetDistribution.get] at hzup hznum
    simp only [slotTotal, List.map_cons, List.map_nil, List.sum_cons,
      List.sum_nil, upperSet_ctype, lowerSet_ctype, numberSet_ctype,
      symbolSet_ctype, TargetDistribution.get]
    omega
  · simp only [activeSets] at ht ⊢
    norm_num at ht ⊢
    have hb : baseDistribution [lowerSet, numberSet] l = ⟨0, l / 2, l / 2, 0⟩ := by
      simp [baseDistribution, upperSet, lowerSet, numberSet, symbolSet,
        TargetDistribution.set]
    have hex : ∃ t2, 1 ≤ (baseDistribution [lowerSet, numberSet] l).get t2 := by
      refine ⟨CharType.lowercase, ?_⟩
      rw [hb]
      simp only [TargetDistribution.get]
      omega
    have hzup : (calculateTargetDistribution [lowerSet, numberSet] l).get CharType.uppercase = 0 := by
      apply calc_get_zero [lowerSet, numberSet] l CharType.uppercase ?_ hex
      rw [hb]
      rfl
    have hzsym : (calculateTargetDistribution [lowerSet, numberSet] l).get CharType.symbols = 0 := by
      apply calc_get_zero [lowerSet, numberSet] l CharType.symbols ?_ hex
      rw [hb]
      rfl
    simp only [TargetDistribution.get] at hzup hzsym
    simp only [slotTotal, List.map_cons, List.map_nil, List.sum_cons,
      List.sum_nil, upperSet_ctype, lowerSet_ctype, numberSet_ctype,
      symbolSet_ctype, TargetDistribution.get]
    omega
  · simp only [activeSets] at ht ⊢
    norm_num at ht ⊢
    have hb : baseDistribution [lowerSet, numberSet, symbolSet] l = ⟨0, l / 3, l / 3, l / 3⟩ := by
      simp [baseDistribution, upperSet, lowerSet, numberSet, symbolSet,
        TargetDistribution.set]
    have hex : ∃ t2, 1 ≤ (baseDistribution [lowerSet, numberSet, symbolSet] l).get t2 := by
      refine ⟨CharType.lowercase, ?_⟩
      rw [hb]
      simp only [TargetDistribution.get]
      omega
    have hzup : (calculateTargetDistribution [lowerSet, numberSet, symbolSet] l).get CharType.uppercase = 0 := by
      apply calc_get_zero [lowerSet, numberSet, symbolSet] l CharType.uppercase ?_ hex
      rw [hb]
      rfl
    simp only [TargetDistribution.get] at hzup
    simp only [slotTotal, List.map_cons, List.map_nil, List.sum_cons,
      List.sum_nil, upperSet_ctype, lowerSet_ctype, numberSet_ctype,
      symbolSet_ctype, TargetDistribution.get]
    omega
  · simp only [activeSets] at ht ⊢
    norm_num at ht ⊢
    have hb : baseDistribution [upperSet] l = ⟨l / 1, 0, 0, 0⟩ := by
      simp [baseDistribution, upperSet, lowerSet, numberSet, symbolSet,
        TargetDistribution.set]
    have hex : ∃ t2, 1 ≤ (baseDistribution [upperSet] l).get t2 := by
      refine ⟨CharType.uppercase, ?_⟩
      rw [hb]
      simp only [TargetDistribution.get]
      omega
    have hzlow : (calculateTargetDistribution [upperSet] l).get CharType.lowercase = 0 := by
      apply calc_get_zero [upperSet] l CharType.lowercase ?_ hex
      rw [hb]
      rfl
    have hznum : (calculateTargetDistribution [upperSet] l).get CharType.numbers = 0 := by
      apply calc_get_zero [upperSet] l CharType.numbers ?_ hex
      rw [hb]
      rfl
    have hzsym : (calculateTargetDistribution [upperSet] l).get CharType.symbols = 0 := by
      apply calc_get_zero [upperSet] l CharType.symbols ?_ hex
      rw [hb]
      rfl
    simp only [TargetDistribution.get] at hzlow hznum hzsym
    simp only [slotTotal, List.map_cons, List.map_nil, List.sum_cons,
      List.sum_nil, upperSet_ctype, lowerSet_ctype, numberSet_ctype,
      symbolSet_ctype, TargetDistribution.get]
    omega
  · simp only [activeSets] at ht ⊢
    norm_num at ht ⊢
    have hb : baseDistribution [upperSet, symbolSet] l = ⟨l / 2, 0, 0, l / 2⟩ := by
      simp [baseDistribution, upperSet, lowerSet, numberSet, symbolSet,
        TargetDistribution.set]
    have hex : ∃ t2, 1 ≤ (baseDistribution [upperSet, symbolSet] l).get t2 := by
      refine ⟨CharType.uppercase, ?_⟩
      rw [hb]
      simp only [TargetDistribution.get]
      omega
    have hzlow : (calculateTargetDistribution [upperSet, symbolSet] l).get CharType.lowercase = 0 := by
      apply calc_get_zero [upperSet, symbolSet] l CharType.lowercase ?_ hex
      rw [hb]
      rfl
    have hznum : (calculateTargetDistribution [upperSet, symbolSet] l).get CharType.numbers = 0 := by
      apply calc_get_zero [upperSet, symbolSet] l CharType.numbers ?_ hex
      rw [hb]
      rfl
    simp only [TargetDistribution.get] at hzlow hznum
    simp only [slotTotal, List.map_cons, List.map_nil, List.sum_cons,
      List.sum_nil, upperSet_ctype, lowerSet_ctype, numberSet_ctype,
      symbolSet_ctype, TargetDistribution.get]
    omega
  · simp only [activeSets] at ht ⊢
    norm_num at ht ⊢
    have hb : baseDistribution [upperSet, numberSet] l = ⟨l / 2, 0, l / 2, 0⟩ := by
      simp [baseDistribution, upperSet, lowerSet, numberSet, symbolSet,
        TargetDistribution.set]
    have hex : ∃ t2, 1 ≤ (baseDistribution [upperSet, numberSet] l).get t2 := by
      refine ⟨CharType.uppercase, ?_⟩
      rw [hb]
      simp only [TargetDistribution.get]
      omega
    have hzlow : (calculateTargetDistribution [upperSet, numberSet] l).get CharType.lowercase = 0 := by
      apply calc_get_zero [upperSet, numberSet] l CharType.lowercase ?_ hex
      rw [hb]
      rfl
    have hzsym : (calculateTargetDistribution [upperSet, numberSet] l).get CharType.symbols = 0 := by
      apply calc_get_zero [upperSet, numberSet] l CharType.symbols ?_ hex
      rw [hb]
      rfl
    simp only [TargetDistribution.get] at hzlow hzsym
    simp only [slotTotal, List.map_cons, List.map_nil, List.sum_cons,
      List.sum_nil, upperSet_ctype, lowerSet_ctype, numberSet_ctype,
      symbolSet_ctype, TargetDistribution.get]
    omega
  · simp only [activeSets] at ht ⊢
    norm_num at ht ⊢
    have hb : baseDistribution [upperSet, numberSet, symbolSet] l = ⟨l / 3, 0, l / 3, l / 3⟩ := by
      simp [baseDistribution, upperSet, lowerSet, numberSet, symbolSet,
        TargetDistribution.set]
    have hex : ∃ t2, 1 ≤ (baseDistribution [upperSet, numberSet, symbolSet] l).get t2 := by
      refine ⟨CharType.uppercase, ?_⟩
      rw [hb]
      simp only [TargetDistribution.get]
      omega
    have hzlow : (calculateTargetDistribution [upperSet, numberSet, symbolSet] l).get CharType.lowercase = 0 := by
      apply calc_get_zero [upperSet, numberSet, symbolSet] l CharType.lowercase ?_ hex
      rw [hb]
      rfl
    simp only [TargetDistribution.get] at hzlow
    simp only [slotTotal, List.map_cons, List.map_nil, List.sum_cons,
      List.sum_nil, upperSet_ctype, lowerSet_ctype, numberSet_ctype,
      symbolSet_ctype, TargetDistribution.get]
    omega
  · simp only [activeSets] at ht ⊢
    norm_num at ht ⊢
    have hb : baseDistribution [upperSet, lowerSet] l = ⟨l / 2, l / 2, 0, 0⟩ := by
      simp [baseDistribution, upperSet, lowerSet, numberSet, symbolSet,
        TargetDistribution.set]
    have hex : ∃ t2, 1 ≤ (baseDistribution [upperSet, lowerSet] l).get t2 := by
      refine ⟨CharType.uppercase, ?_⟩
      rw [hb]
      simp only [TargetDistribution.get]
      omega
    have hznum : (calculateTargetDistribution [upperSet, lowerSet] l).get CharType.numbers = 0 := by
      apply calc_get_zero [upperSet, lowerSet] l CharType.numbers ?_ hex
      rw [hb]
      rfl
    have hzsym : (calculateTargetDistribution [upperSet, lowerSet] l).get CharType.symbols = 0 := by
      apply calc_get_zero [upperSet, lowerSet] l CharType.symbols ?_ hex
      rw [hb]
      rfl
    simp only [TargetDistribution.get] at hznum hzsym
    simp only [slotTotal, List.map_cons, List.map_nil, List.sum_cons,
      List.sum_nil, upperSet_ctype, lowerSet_ctype, numberSet_ctype,
      symbolSet_ctype, TargetDistribution.get]
    omega
  · simp only [activeSets] at ht ⊢
    norm_num at ht ⊢
    have hb : baseDistribution [upperSet, lowerSet, symbolSet] l = ⟨l / 3, l / 3, 0, l / 3⟩ := by
      simp [baseDistribution, upperSet, lowerSet, numberSet, symbolSet,
        TargetDistribution.set]
    have hex : ∃ t2, 1 ≤ (baseDistribution [upperSet, lowerSet, symbolSet] l).get t2 := by
      refine ⟨CharType.uppercase, ?_⟩
      rw [hb]
      simp only [TargetDistribution.get]
      omega
    have hznum : (calculateTargetDistribution [upperSet, lowerSet, symbolSet] l).get CharType.numbers = 0 := by
      apply calc_get_zero [upperSet, lowerSet, symbolSet] l CharType.numbers ?_ hex
      rw [hb]
      rfl
    simp only [TargetDistribution.get] at hznum
    simp only [slotTotal, List.map_cons, List.map_nil, List.sum_cons,
      List.sum_nil, upperSet_ctype, lowerSet_ctype, numberSet_ctype,
      symbolSet_ctype, TargetDistribution.get]
    omega
  · simp only [activeSets] at ht ⊢
    norm_num at ht ⊢
    have hb : baseDistribution [upperSet, lowerSet, numberSet] l = ⟨l / 3, l / 3, l / 3, 0⟩ := by
      simp [baseDistribution, upperSet, lowerSet, numberSet, symbolSet,
        TargetDistribution.set]
    have hex : ∃ t2, 1 ≤ (baseDistribution [upperSet, lowerSet, numberSet] l).get t2 := by
      refine ⟨CharType.uppercase, ?_⟩
      rw [hb]
      simp only [TargetDistribution.get]
      omega
    have hzsym : (calculateTargetDistribution [upperSet, lowerSet, numberSet] l).get CharType.symbols = 0 := by
      apply calc_get_zero [upperSet, lowerSet, numberSet] l CharType.symbols ?_ hex
      rw [hb]
      rfl
    simp only [TargetDistribution.get] at hzsym
    simp only [slotTotal, List.map_cons, List.map_nil, List.sum_cons,
      List.sum_nil, upperSet_ctype, lowerSet_ctype, numberSet_ctype,
      symbolSet_ctype, TargetDistribution.get]
    omega
  · simp only [activeSets] at ht ⊢
    norm_num at ht ⊢
    simp only [slotTotal, List.map_cons, List.map_nil, List.sum_cons,
      List.sum_nil, upperSet_ctype, lowerSet_ctype, numberSet_ctype,
      symbolSet_ctype, TargetDistribution.get]
    omega


set_option maxRecDepth 100000

/-- The all-zeros digest: 128 lowercase hex characters. -/
def zeroDigest : String := String.mk (List.replicate 128 '0')

/-- An empty password array has no filled position. -/
theorem filled_replicate (n : Nat) : filled (List.replicate n none) = 0 := by
  induction n with
  | zero => rfl
  | succ m ih =>
    simp only [List.replicate_succ, filled, List.countP_cons] at *
    simpa using ih

/-- End-to-end facts of one `hashToPassword` run: the placement pass
fills every position, the fill pass is the identity, every character
occurs at most `maxRepetitions + 1` times in the output, and the output
has the requested length. -/
theorem pipeline_facts (hash : String) (l : Nat) (o : PasswordOptions)
    (h8 : 8 ≤ l) (h128 : l ≤ 128) :
    filled (fillPasswordWithDistribution hash.data (activeSets o)
        (calculateTargetDistribution (activeSets o) l) l (calculateMaxRepetitions l)
        ⟨List.replicate l none, fun _ => 0, 0⟩).pw = l ∧
    fillRemainingPositions hash.data (activeSets o) l (calculateMaxRepetitions l)
        (fillPasswordWithDistribution hash.data (activeSets o)
          (calculateTargetDistribution (activeSets o) l) l (calculateMaxRepetitions l)
          ⟨List.replicate l none, fun _ => 0, 0⟩) =
      fillPasswordWithDistribution hash.data (activeSets o)
        (calculateTargetDistribution (activeSets o) l) l (calculateMaxRepetitions l)
        ⟨List.replicate l none, fun _ => 0, 0⟩ ∧
    (∀ c : Char, (hashToPassword hash l o).data.count c ≤ calculateMaxRepetitions l + 1) ∧
    (hashToPassword hash l o).data.length = l := by
  have hl : 0 < l := by omega
  have hart := len_le_ten_cap l h8 h128
  have hInv0 : MapInv l (calculateMaxRepetitions l + 1)
      ⟨List.replicate l none, fun _ => 0, 0⟩ := by
    refine ⟨by simp, ?_, ?_⟩
    · intro c
      simp [List.count_replicate]
    · intro c
      exact Nat.zero_le _
  have hpool : ∀ s ∈ activeSets o, s.chars.Nodup ∧ 10 ≤ s.chars.length :=
    fun s hs => ⟨activeSets_nodup hs, activeSets_len10 hs⟩
  obtain ⟨hInv1, hfill1⟩ := placement_inv_filled hash.data l (calculateMaxRepetitions l)
    (calculateTargetDistribution (activeSets o) l) hl hart (activeSets o)
    ⟨List.replicate l none, fun _ => 0, 0⟩ hpool hInv0
    (by
      have h0 : filled ((⟨List.replicate l none, fun _ => 0, 0⟩ : MapSt)).pw = 0 :=
        filled_replicate l
      rw [h0, slotTotal_calc o l h8]
      omega)
  have hfl1 : filled (fillPasswordWithDistribution hash.data (activeSets o)
      (calculateTargetDistribution (activeSets o) l) l (calculateMaxRepetitions l)
      ⟨List.replicate l none, fun _ => 0, 0⟩).pw = l := by
    rw [hfill1]
    have h0 : filled ((⟨List.replicate l none, fun _ => 0, 0⟩ : MapSt)).pw = 0 :=
      filled_replicate l
    rw [h0, slotTotal_calc o l h8]
    omega
  have hall1 : ∀ x ∈ (fillPasswordWithDistribution hash.data (activeSets o)
      (calculateTargetDistribution (activeSets o) l) l (calculateMaxRepetitions l)
      ⟨List.replicate l none, fun _ => 0, 0⟩).pw, x.isSome = true := by
    apply List.countP_eq_length.mp
    rw [hInv1.hlen]
    exact hfl1
  have hnoop := fillRemaining_noop hash.data (activeSets o) l (calculateMaxRepetitions l)
    (fillPasswordWithDistribution hash.data (activeSets o)
      (calculateTargetDistribution (activeSets o) l) l (calculateMaxRepetitions l)
      ⟨List.replicate l none, fun _ => 0, 0⟩) hInv1.hlen hall1
  have hidx : ∀ i ∈ (List.range' 1 (l - 1)).reverse, i < l := by
    intro i hi
    rw [List.mem_reverse] at hi
    obtain ⟨k, hk, hik⟩ := List.mem_range'.mp hi
    omega
  obtain ⟨hlen3, hcount3, hsome3⟩ := shuffle_fold_preserves hash.data l
    ((List.range' 1 (l - 1)).reverse)
    ((fillPasswordWithDistribution hash.data (activeSets o)
        (calculateTargetDistribution (activeSets o) l) l (calculateMaxRepetitions l)
        ⟨List.replicate l none, fun _ => 0, 0⟩).pw,
     (fillPasswordWithDistribution hash.data (activeSets o)
        (calculateTargetDistribution (activeSets o) l) l (calculateMaxRepetitions l)
        ⟨List.replicate l none, fun _ => 0, 0⟩).off) hidx hInv1.hlen
  have hdef : (hashToPassword hash l o).data =
      ((shufflePassword hash.data l
        ((fillPasswordWithDistribution hash.data (activeSets o)
            (calculateTargetDistribution (activeSets o) l) l (calculateMaxRepetitions l)
            ⟨List.replicate l none, fun _ => 0, 0⟩).pw,
         (fillPasswordWithDistribution hash.data (activeSets o)
            (calculateTargetDistribution (activeSets o) l) l (calculateMaxRepetitions l)
            ⟨List.replicate l none, fun _ => 0, 0⟩).off)).1.filterMap id) := by
    simp only [hashToPassword]
    rw [hnoop]
  refine ⟨hfl1, hnoop, ?_, ?_⟩
  · intro c
    rw [hdef, count_filterMap_id]
    have hc := hcount3 (some c)
    simp only [shufflePassword]
    rw [hc]
    rw [← hInv1.hcount c]
    exact hInv1.hcap c
  · rw [hdef]
    have hsome4 := hsome3 hall1
    rw [length_filterMap_all_some _ (by
      intro x hx
      apply hsome4
      simpa [shufflePassword] using hx)]
    simpa [shufflePassword] using hlen3

/-! ### C6: the repetition bound -/

/-- C6.  For every digest, supported length and class configuration, the
maximum single-character repetition count of the generated password is
at most `calculateMaxRepetitions length + 1`. -/
theorem repetition_bound (hash : String) (l : Nat) (o : PasswordOptions)
    (hd : IsDigest hash) (h8 : 8 ≤ l) (h128 : l ≤ 128) :
    maxRepetitions (hashToPassword hash l o) ≤ calculateMaxRepetitions l + 1 := by
  obtain ⟨_, _, hcnt, _⟩ := pipeline_facts hash l o h8 h128
  unfold maxRepetitions
  apply foldr_max_le
  intro x hx
  obtain ⟨c, _, rfl⟩ := List.mem_map.mp hx
  exact hcnt c

/-- Witness for C6 at the all-zeros digest and length 8. -/
theorem repetition_bound_witness :
    maxRepetitions (hashToPassword zeroDigest 8 defaultOptions) ≤
      calculateMaxRepetitions 8 + 1 :=
  repetition_bound zeroDigest 8 defaultOptions (by decide) (by decide) (by decide)

/-! ### C8: the fill pass is dead code -/

/-- C8 counterexample.  At length 9 with the all-zeros digest the
remainder rounding occurs (base counts sum to 8 < 9), yet after the
placement pass every one of the 9 positions is filled: the linear scan
for a free position finds nothing, so no position is left for the fill
pass. -/
theorem fill_pass_counterexample :
    (calculateTargetDistribution (activeSets defaultOptions) 9).total = 9 ∧
    filled (fillPasswordWithDistribution zeroDigest.data (activeSets defaultOptions)
        (calculateTargetDistribution (activeSets defaultOptions) 9) 9
        (calculateMaxRepetitions 9) ⟨List.replicate 9 none, fun _ => 0, 0⟩).pw = 9 ∧
    firstFreePos (fillPasswordWithDistribution zeroDigest.data (activeSets defaultOptions)
        (calculateTargetDistribution (activeSets defaultOptions) 9) 9
        (calculateMaxRepetitions 9) ⟨List.replicate 9 none, fun _ => 0, 0⟩).pw 9 =
      none := by
  refine ⟨by decide, by decide, by decide⟩

/-- C8 (amended).  For every digest, supported length and class
configuration the placement pass already fills all positions (the
targets sum to the length and every slot finds a free position), the
fill pass finds no empty position and leaves the state unchanged, and
every position of the requested length is filled before the shuffle. -/
theorem fill_pass_amended (hash : String) (l : Nat) (o : PasswordOptions)
    (hd : IsDigest hash) (h8 : 8 ≤ l) (h128 : l ≤ 128) :
    filled (fillPasswordWithDistribution hash.data (activeSets o)
        (calculateTargetDistribution (activeSets o) l) l (calculateMaxRepetitions l)
        ⟨List.replicate l none, fun _ => 0, 0⟩).pw = l ∧
    fillRemainingPositions hash.data (activeSets o) l (calculateMaxRepetitions l)
        (fillPasswordWithDistribution hash.data (activeSets o)
          (calculateTargetDistribution (activeSets o) l) l (calculateMaxRepetitions l)
          ⟨List.replicate l none, fun _ => 0, 0⟩) =
      fillPasswordWithDistribution hash.data (activeSets o)
        (calculateTargetDistribution (activeSets o) l) l (calculateMaxRepetitions l)
        ⟨List.replicate l none, fun _ => 0, 0⟩ ∧
    (hashToPassword hash l o).data.length = l := by
  obtain ⟨h1, h2, _, h4⟩ := pipeline_facts hash l o h8 h128
  exact ⟨h1, h2, h4⟩

/-- Witness for the amended C8 at the all-zeros digest and length 9. -/
theorem fill_pass_amended_witness :
    filled (fillPasswordWithDistribution zeroDigest.data (activeSets defaultOptions)
        (calculateTargetDistribution (activeSets defaultOptions) 9) 9
        (calculateMaxRepetitions 9) ⟨List.replicate 9 none, fun _ => 0, 0⟩).pw = 9 ∧
    fillRemainingPositions zeroDigest.data (activeSets defaultOptions) 9
        (calculateMaxRepetitions 9)
        (fillPasswordWithDistribution zeroDigest.data (activeSets defaultOptions)
          (calculateTargetDistribution (activeSets defaultOptions) 9) 9
          (calculateMaxRepetitions 9) ⟨List.replicate 9 none, fun _ => 0, 0⟩) =
      fillPasswordWithDistribution zeroDigest.data (activeSets defaultOptions)
        (calculateTargetDistribution (activeSets defaultOptions) 9) 9
        (calculateMaxRepetitions 9) ⟨List.replicate 9 none, fun _ => 0, 0⟩ ∧
    (hashToPassword zeroDigest 9 defaultOptions).data.length = 9 :=
  fill_pass_amended zeroDigest 9 defaultOptions (by decide) (by decide) (by decide)

/-! ### C9: the diversity floor -/

/-- C9 counterexample.  The 0.4 floor fails on the all-zeros digest at
length 24: only 8 distinct characters appear, a ratio of 1/3. -/
theorem diversity_floor_counterexample :
    IsDigest zeroDigest ∧
    uniqueCount (hashToPassword zeroDigest 24 defaultOptions) * 5 < 2 * 24 := by
  refine ⟨by decide, by decide⟩

/-- C9 (amended).  For every digest and supported length with the
default four-class configuration, the unique-character count satisfies
`unique * (budget + 1) ≥ length`, i.e. the diversity ratio is at least
`1 / (RepetitionBudget(length) + 1)`; the 0.4 floor is an empirical
property of SHA-512 digests, not a consequence of the algorithm. -/
theorem diversity_floor_amended (hash : String) (l : Nat)
    (hd : IsDigest hash) (h8 : 8 ≤ l) (h128 : l ≤ 128) :
    l ≤ uniqueCount (hashToPassword hash l defaultOptions) *
      (calculateMaxRepetitions l + 1) := by
  obtain ⟨_, _, hcnt, hlen⟩ := pipeline_facts hash l defaultOptions h8 h128
  have hsum := List.sum_map_count_dedup_eq_length (hashToPassword hash l defaultOptions).data
  have hbound : ∀ x ∈ ((hashToPassword hash l defaultOptions).data.dedup.map
      (fun x => (hashToPassword hash l defaultOptions).data.count x)),
      x ≤ calculateMaxRepetitions l + 1 := by
    intro x hx
    obtain ⟨c, _, rfl⟩ := List.mem_map.mp hx
    exact hcnt c
  have hle := List.sum_le_card_nsmul
    ((hashToPassword hash l defaultOptions).data.dedup.map
      (fun x => (hashToPassword hash l defaultOptions).data.count x))
    (calculateMaxRepetitions l + 1) hbound
  rw [List.length_map, smul_eq_mul] at hle
  unfold uniqueCount
  omega

/-- Witness for the amended C9 at the all-zeros digest and length 8. -/
theorem diversity_floor_amended_witness :
    8 ≤ uniqueCount (hashToPassword zeroDigest 8 defaultOptions) *
      (calculateMaxRepetitions 8 + 1) :=
  diversity_floor_amended zeroDigest 8 (by decide) (by decide) (by decide)

end Nuwault
